import Mathlib

/-!
Verification of the `image-metadata-recorder` repository core: key casing
(`_to_camel_case`), recursive normalization (`normalize_recursively`),
promotion (`process`), key-path enumeration (`extract_key_paths`),
structural templates (`template_key_paths`), path resolution, and the
per-file workflow control flow (`run_for_file`).

Modelling conventions for the Python source:
* Python `str` is modelled by Lean `String` (a list of `Char`); character
  classes (`\d` of `re`, `str.split()` whitespace, `str.lower`/`str.upper`)
  are modelled over the ASCII range.
* Python `dict` is modelled by an association list `List (String × PyVal)`
  with Python's insertion semantics: assignment to a present key replaces
  the value in place, assignment to an absent key appends at the end.
* A Python `set` of strings is modelled by the list of elements ever added
  to it (its membership); `sorted(s)` for such a set is modelled by
  deduplicating that list and sorting it, which yields the ascending
  enumeration of the set exactly as `sorted` does.
* Python `float` values produced by parsing a decimal literal are modelled
  by the exact rational value of the literal.
-/

namespace IMR

/-! ### Character-level helpers (ASCII model of Python semantics) -/

/-- Whitespace characters recognised by Python `str.split()` (ASCII range). -/
def pyIsSpace (c : Char) : Bool :=
  c == ' ' || c == '\t' || c == '\n' || c == '\r' || c == '\x0b' || c == '\x0c'

/-- The separator replacement performed by
`text.replace("-", " ").replace("_", " ")`, character by character
(both replacements are single-character substitutions). -/
def sepToSpace (c : Char) : Char :=
  if c == '-' || c == '_' then ' ' else c

/-- Accumulator pass for Python `str.split()`: `cur` holds the characters
of the token currently being read, in reverse order. -/
def splitGo : List Char → List Char → List (List Char)
  | [], cur => if cur.isEmpty then [] else [cur.reverse]
  | c :: rest, cur =>
    if pyIsSpace c then
      if cur.isEmpty then splitGo rest [] else cur.reverse :: splitGo rest []
    else splitGo rest (c :: cur)

/-- Python `str.split()` with no arguments: split on runs of whitespace,
discarding empty tokens. -/
def pySplit (l : List Char) : List (List Char) := splitGo l []

/-- Lower-case the first character of a token, leave the rest unchanged:
`parts[0][0].lower() + parts[0][1:]`. -/
def lowerFirst : List Char → List Char
  | [] => []
  | c :: rest => c.toLower :: rest

/-- Python `str.capitalize()`: upper-case the first character and
lower-case all remaining characters. -/
def pyCapitalize : List Char → List Char
  | [] => []
  | c :: rest => c.toUpper :: rest.map Char.toLower

/-- `_to_camel_case` from `processors/standard_processor.py`. -/
def toCamelCase (text : String) : String :=
  if text = "" then ""
  else
    let parts := pySplit (text.data.map sepToSpace)
    match parts with
    | [] => ""
    | [w] => ⟨lowerFirst w⟩
    | w :: ws => ⟨lowerFirst w ++ (ws.map pyCapitalize).flatten⟩

/-- Upper-case the first character of a token, leave the rest unchanged. -/
def upperFirst : List Char → List Char
  | [] => []
  | c :: rest => c.toUpper :: rest

/-- A separator for the casing algorithm: whitespace, hyphen or
underscore (what the replace-then-split pipeline consumes). -/
def isSepChar (c : Char) : Bool :=
  pyIsSpace c || c == '-' || c == '_'

/-- Join tokens with single spaces. -/
def joinSpL : List (List Char) → List Char
  | [] => []
  | [t] => t
  | t :: ts => t ++ ' ' :: joinSpL ts

/-- The camel-casing of a token list: first token gets `lowerFirst`, every
later token gets Python `str.capitalize()`, all concatenated. -/
def camelOfTokens : List (List Char) → String
  | [] => ""
  | [w] => ⟨lowerFirst w⟩
  | w :: ws => ⟨lowerFirst w ++ (ws.map pyCapitalize).flatten⟩

/-- The casing function transcribed from the specification's algorithm
description: identical to `toCamelCase` except that every token after the
first has only its first character upper-cased and the rest of the token
left unchanged. -/
def specToCamelCase (text : String) : String :=
  if text = "" then ""
  else
    let parts := pySplit (text.data.map sepToSpace)
    match parts with
    | [] => ""
    | [w] => ⟨lowerFirst w⟩
    | w :: ws => ⟨lowerFirst w ++ (ws.map upperFirst).flatten⟩

/-! ### Structural templates: `re.sub(r"\.(\d+)", ".[]", p)`

`re.sub` scans left to right; a match is a literal `.` followed by a
maximal nonempty run of decimal digits, and is replaced by the literal
text `.[]`.  `scanGo` is that scan as a three-state machine:
`plain` = not inside a match; `afterDot` = a `.` has been read but not yet
emitted (whether it starts a match depends on the next character);
`inDigits` = inside the digit run of a match whose `.[]` has already been
emitted (remaining digits are swallowed). -/

inductive ScanSt : Type
  | plain : ScanSt
  | afterDot : ScanSt
  | inDigits : ScanSt

/-- The scanning pass of `re.sub(r"\.(\d+)", ".[]", _)`. -/
def scanGo : ScanSt → List Char → List Char
  | .plain, [] => []
  | .plain, c :: rest =>
    if c = '.' then scanGo .afterDot rest else c :: scanGo .plain rest
  | .afterDot, [] => ['.']
  | .afterDot, c :: rest =>
    if c.isDigit then '.' :: '[' :: ']' :: scanGo .inDigits rest
    else if c = '.' then '.' :: scanGo .afterDot rest
    else '.' :: c :: scanGo .plain rest
  | .inDigits, [] => []
  | .inDigits, c :: rest =>
    if c.isDigit then scanGo .inDigits rest
    else if c = '.' then scanGo .afterDot rest
    else c :: scanGo .plain rest

/-- `re.sub(r"\.(\d+)", ".[]", p)` on a whole string. -/
def subIndices (p : String) : String := ⟨scanGo .plain p.data⟩

/-- Lexicographic comparison of character lists by code point: the order
Python's `sorted` uses on strings. -/
def charsLe : List Char → List Char → Bool
  | [], _ => true
  | _ :: _, [] => false
  | a :: as, b :: bs =>
    if a.toNat = b.toNat then charsLe as bs else decide (a.toNat < b.toNat)

/-- The string order used for sorted outputs. -/
def StrLeR (a b : String) : Prop := charsLe a.data b.data = true

instance : DecidableRel StrLeR :=
  fun a b => inferInstanceAs (Decidable (charsLe a.data b.data = true))

theorem char_eq_of_toNat_eq {a b : Char} (h : a.toNat = b.toNat) : a = b :=
  Char.eq_of_val_eq (UInt32.toNat.inj h)

theorem charsLe_total : ∀ a b : List Char, charsLe a b = true ∨ charsLe b a = true
  | [], _ => Or.inl rfl
  | _ :: _, [] => Or.inr rfl
  | a :: as, b :: bs => by
    simp only [charsLe]
    rcases Nat.lt_trichotomy a.toNat b.toNat with h | h | h
    · left; rw [if_neg (Nat.ne_of_lt h)]; simpa using h
    · rw [if_pos h, if_pos h.symm]
      exact charsLe_total as bs
    · right; rw [if_neg (Nat.ne_of_lt h)]; simpa using h

theorem charsLe_trans :
    ∀ a b c : List Char, charsLe a b = true → charsLe b c = true → charsLe a c = true
  | [], _, _ => fun _ _ => rfl
  | _ :: _, [], _ => fun h _ => by simp [charsLe] at h
  | _ :: _, _ :: _, [] => fun _ h => by simp [charsLe] at h
  | a :: as, b :: bs, c :: cs => fun h1 h2 => by
    simp only [charsLe] at h1 h2 ⊢
    by_cases hab : a.toNat = b.toNat <;> by_cases hbc : b.toNat = c.toNat
    · rw [if_pos hab] at h1; rw [if_pos hbc] at h2; rw [if_pos (hab.trans hbc)]
      exact charsLe_trans as bs cs h1 h2
    · rw [if_neg hbc] at h2; simp only [decide_eq_true_eq] at h2
      rw [if_neg (by omega)]; simp only [decide_eq_true_eq]; omega
    · rw [if_neg hab] at h1; simp only [decide_eq_true_eq] at h1
      rw [if_neg (by omega)]; simp only [decide_eq_true_eq]; omega
    · rw [if_neg hab] at h1; rw [if_neg hbc] at h2
      simp only [decide_eq_true_eq] at h1 h2
      rw [if_neg (by omega)]; simp only [decide_eq_true_eq]; omega

theorem charsLe_antisymm :
    ∀ a b : List Char, charsLe a b = true → charsLe b a = true → a = b
  | [], [] => fun _ _ => rfl
  | [], _ :: _ => fun _ h2 => by simp [charsLe] at h2
  | _ :: _, [] => fun h1 _ => by simp [charsLe] at h1
  | a :: as, b :: bs => fun h1 h2 => by
    simp only [charsLe] at h1 h2
    by_cases hab : a.toNat = b.toNat
    · rw [if_pos hab] at h1; rw [if_pos hab.symm] at h2
      rw [char_eq_of_toNat_eq hab, charsLe_antisymm as bs h1 h2]
    · rw [if_neg hab] at h1; rw [if_neg (fun h => hab h.symm)] at h2
      simp only [decide_eq_true_eq] at h1 h2; omega

instance : IsTotal String StrLeR := ⟨fun a b => charsLe_total a.data b.data⟩

instance : IsTrans String StrLeR := ⟨fun a b c => charsLe_trans a.data b.data c.data⟩

instance : IsAntisymm String StrLeR :=
  ⟨fun a b h1 h2 => congrArg String.mk (charsLe_antisymm a.data b.data h1 h2)⟩

/-- Insertion sort with the string order: the ascending order used by
Python's `sorted` on strings (lexicographic by code point). -/
def sortStrings (l : List String) : List String :=
  l.insertionSort StrLeR

/-- `template_key_paths` from `reporters/keypath_util.py`: the input set of
paths is given as the list of its elements; the result is the sorted list
of distinct templates. -/
def template_key_paths (paths : List String) : List String :=
  sortStrings ((paths.map subIndices).dedup)

/-! ### Segment-level descriptions of template collapsing -/

/-- Split a character list on `.` (Python `p.split(".")`): always returns
at least one (possibly empty) segment; segments contain no `.`. -/
def splitDotsL : List Char → List (List Char)
  | [] => [[]]
  | c :: rest =>
    if c = '.' then [] :: splitDotsL rest
    else
      match splitDotsL rest with
      | [] => [[c]]
      | s :: ss => (c :: s) :: ss

/-- Rejoin segments with `.` (Python `".".join(segs)`). -/
def joinDotsL : List (List Char) → List Char
  | [] => []
  | [t] => t
  | t :: ts => t ++ '.' :: joinDotsL ts

/-- Collapse one non-leading segment the way the code's regex actually
does: if the segment begins with a digit, its maximal leading digit run is
replaced by `[]`; otherwise it is unchanged. -/
def collapseAm (t : List Char) : List Char :=
  match t with
  | c :: _ => if c.isDigit then '[' :: ']' :: t.dropWhile Char.isDigit else t
  | [] => []

/-- Collapse one segment the way the claim words it: the segment is
replaced by `[]` exactly when it consists entirely of decimal digits (and
is nonempty); every other segment is unchanged. -/
def collapseClaim (t : List Char) : List Char :=
  if t ≠ [] ∧ t.all Char.isDigit then ['[', ']'] else t

/-- The tail part of the segment-level reading of the scan: every later
segment is prefixed by the `.` that separates it and rewritten by
`collapseAm`. -/
def glueTail (ss : List (List Char)) : List Char :=
  (ss.map (fun t => '.' :: collapseAm t)).flatten

/-- Segment-level reading of the scan started in state `plain`. -/
def gluePlain : List (List Char) → List Char
  | [] => []
  | s :: ss => s ++ glueTail ss

/-- Segment-level reading of the scan started in state `inDigits`: the
remaining digits of the current segment are swallowed. -/
def glueDigits : List (List Char) → List Char
  | [] => []
  | s :: ss => s.dropWhile Char.isDigit ++ glueTail ss

/-- The per-path template map as the claim states it: split on `.`,
collapse non-leading all-digit segments, rejoin (the leading segment is
left unchanged per the claim's wording). -/
def subIndicesClaim (p : String) : String :=
  match splitDotsL p.data with
  | [] => ⟨[]⟩
  | s :: ss => ⟨joinDotsL (s :: ss.map collapseClaim)⟩

/-- The per-path template map as the code actually behaves, described at
segment level: split on `.`, rewrite each non-leading segment with
`collapseAm`, rejoin. -/
def subIndicesAm (p : String) : String :=
  match splitDotsL p.data with
  | [] => ⟨[]⟩
  | s :: ss => ⟨joinDotsL (s :: ss.map collapseAm)⟩

/-- `template_key_paths` as the claim words it. -/
def template_key_paths_claim (paths : List String) : List String :=
  sortStrings ((paths.map subIndicesClaim).dedup)

/-- `template_key_paths` as amended (segment-level description of the
actual behavior). -/
def template_key_paths_am (paths : List String) : List String :=
  sortStrings ((paths.map subIndicesAm).dedup)

/-! ### The data model: Python JSON-like values -/

/-- A Python value as handled by the normalizer: dictionaries (with string
keys — `normalize_recursively` applies `str(key)` so only string keys are
modelled), lists, strings, ints, floats (modelled as exact rationals),
booleans and `None`. -/
inductive PyVal : Type where
  | str : String → PyVal
  | int : Int → PyVal
  | float : ℚ → PyVal
  | bool : Bool → PyVal
  | none : PyVal
  | list : List PyVal → PyVal
  | dict : List (String × PyVal) → PyVal

/-- Python dict lookup (`d[k]` / `k in d` / `d.get(k)`): dictionaries are
association lists whose keys are unique; lookup finds the first match. -/
def dictGet : List (String × PyVal) → String → Option PyVal
  | [], _ => none
  | (k0, v0) :: rest, k => if k0 = k then some v0 else dictGet rest k

/-- Python dict assignment `d[k] = v`: replace in place if the key exists,
otherwise append at the end. -/
def dictSet : List (String × PyVal) → String → PyVal → List (String × PyVal)
  | [], k, v => [(k, v)]
  | (k0, v0) :: rest, k, v =>
    if k0 = k then (k0, v) :: rest else (k0, v0) :: dictSet rest k v

/-- Python dict removal (`d.pop(k)` when present): remove the entry with
the given key (all entries, which for unique-key dicts is the one entry). -/
def dictRemove : List (String × PyVal) → String → List (String × PyVal)
  | [], _ => []
  | (k0, v0) :: rest, k =>
    if k0 = k then dictRemove rest k else (k0, v0) :: dictRemove rest k

/-- Build a dict by Python-style assignment of a list of key/value pairs in
order (the `for key, value in data.items(): new_dict[new_key] = ...` loop). -/
def dictOfPairs (ps : List (String × PyVal)) : List (String × PyVal) :=
  ps.foldl (fun d kv => dictSet d kv.1 kv.2) []

/-! ### Scalar string coercion in `normalize_recursively`

The source tests `re.match(r"^-?\d+$", data)` and, failing that,
`re.match(r"^-?\d*\.\d+$", data) or re.match(r"^-?\d+\.\d*$", data)`.
In Python `$` matches at the end of the string or just before a single
trailing newline, so each pattern also accepts one trailing `'\n'`.
The matchers below are the shape these anchored regexes accept. -/

/-- Drop a single trailing newline (the strings accepted by `...$` are
those accepted at end-of-string after this). -/
def stripNL (s : List Char) : List Char :=
  if s.getLast? = some '\n' then s.dropLast else s

/-- Does the string start with a minus sign? -/
def startsMinus : List Char → Bool
  | [] => false
  | c :: _ => decide (c = '-')

/-- Strip one leading minus sign (the `-?` of the patterns). -/
def dropMinus : List Char → List Char
  | [] => []
  | c :: rest => if c = '-' then rest else c :: rest

/-- `-?\d+` against the whole remaining string: after the optional sign,
a nonempty run of digits. -/
def isIntCore (s : List Char) : Bool :=
  !(dropMinus s).isEmpty && (dropMinus s).all Char.isDigit

/-- `re.match(r"^-?\d+$", s)` succeeds. -/
def matchesIntPat (s : List Char) : Bool := isIntCore (stripNL s)

/-- `-?\d*\.\d+` or `-?\d+\.\d*` against the whole remaining string:
after the optional sign, exactly one `.`, every other character a digit,
and at least one digit. -/
def isFloatCore (s : List Char) : Bool :=
  let t := dropMinus s
  decide (t.count '.' = 1) && t.all (fun c => c.isDigit || decide (c = '.')) &&
    decide (2 ≤ t.length)

/-- One of the two float regexes matches. -/
def matchesFloatPat (s : List Char) : Bool := isFloatCore (stripNL s)

/-- Numeric value of one decimal digit character. -/
def digitVal (c : Char) : Nat := c.toNat - 48

/-- Value of a most-significant-first digit string. -/
def natOfDigits (ds : List Char) : Nat :=
  ds.foldl (fun acc c => 10 * acc + digitVal c) 0

/-- Python `int(s)` on a string accepted by the int pattern (`int` ignores
the trailing newline). -/
def intValOf (s : List Char) : Int :=
  let core := stripNL s
  let m : Int := (natOfDigits (dropMinus core) : Int)
  if startsMinus core then -m else m

/-- Python `float(s)` on a string accepted by a float pattern, as the exact
rational value of the decimal literal. -/
def floatValOf (s : List Char) : ℚ :=
  let core := stripNL s
  let t := dropMinus core
  let a := t.takeWhile (fun c => decide (c ≠ '.'))
  let b := (t.dropWhile (fun c => decide (c ≠ '.'))).drop 1
  let q : ℚ := mkRat (natOfDigits a * 10 ^ b.length + natOfDigits b : Int) (10 ^ b.length)
  if startsMinus core then -q else q

/-- The scalar-string branch of `normalize_recursively` (the `int(data)` /
`float(data)` calls never raise on strings the regexes accept, so the
`except` branches are dead). -/
def coerceScalar (s : String) : PyVal :=
  if matchesIntPat s.data then .int (intValOf s.data)
  else if matchesFloatPat s.data then .float (floatValOf s.data)
  else .str s

/-- The strings the int regex accepts, described constructively: an
optional minus, a nonempty digit run, and an optional single trailing
newline (the last admitted by Python's `$`). -/
def IntShapeNL (s : List Char) : Prop :=
  ∃ ds : List Char, ds ≠ [] ∧ ds.all Char.isDigit = true ∧
    (s = ds ∨ s = '-' :: ds ∨ s = ds ++ ['\n'] ∨ s = '-' :: (ds ++ ['\n']))

/-- The strings the float regexes accept, described constructively: an
optional minus, digits around exactly one decimal point with at least one
digit present, and an optional single trailing newline. -/
def FloatShapeNL (s : List Char) : Prop :=
  ∃ a b : List Char, a.all Char.isDigit = true ∧ b.all Char.isDigit = true ∧
    (a ≠ [] ∨ b ≠ []) ∧
    (s = a ++ '.' :: b ∨ s = '-' :: (a ++ '.' :: b) ∨
     s = a ++ '.' :: b ++ ['\n'] ∨ s = '-' :: (a ++ '.' :: b ++ ['\n']))

mutual

/-- `normalize_recursively` from `processors/standard_processor.py`. -/
def normalize_recursively : PyVal → PyVal
  | .dict entries => .dict (dictOfPairs (normPairs entries))
  | .list items => .list (normItems items)
  | .str s => coerceScalar s
  | .int n => .int n
  | .float q => .float q
  | .bool b => .bool b
  | .none => .none

/-- The dict branch: for each entry, camel-case the key, recurse into the
value, then assign into the fresh dict (`dictOfPairs`). -/
def normPairs : List (String × PyVal) → List (String × PyVal)
  | [] => []
  | (k, v) :: rest => (toCamelCase k, normalize_recursively v) :: normPairs rest

/-- The list branch: elementwise recursion. -/
def normItems : List PyVal → List PyVal
  | [] => []
  | v :: rest => normalize_recursively v :: normItems rest

end

/-! ### `process`: promotion of allowlisted tag keys -/

/-- The fixed promotion allowlist from `process`. -/
def keysToPromote : List String :=
  ["imageWidth", "imageLength", "bitsPerSample", "dateTime", "software",
   "compression", "photometricInterpretation", "xResolution", "yResolution",
   "resolutionUnit", "sampleFormat"]

/-- One iteration of the promotion loop: state is the page's entries and
the `tags` dict's entries; `if key in page["tags"]: page[key] =
page["tags"].pop(key)`. -/
def promoteStep (st : List (String × PyVal) × List (String × PyVal)) (key : String) :
    List (String × PyVal) × List (String × PyVal) :=
  match dictGet st.2 key with
  | some v => (dictSet st.1 key v, dictRemove st.2 key)
  | Option.none => st

/-- The per-page body of `process`: skip pages that are not dicts or lack a
dict-valued `"tags"`; otherwise run the promotion loop and drop `"tags"`
if it ended up empty (`page.get("tags") == {}`). -/
def promotePage (page : PyVal) : PyVal :=
  match page with
  | .dict entries =>
    match dictGet entries "tags" with
    | some (.dict tagEntries) =>
      let st := keysToPromote.foldl promoteStep (entries, tagEntries)
      if st.2.isEmpty then .dict (dictRemove st.1 "tags")
      else .dict (dictSet st.1 "tags" (.dict st.2))
    | _ => page
  | _ => page

/-- `process` from `processors/standard_processor.py`: normalize, then if
the result has a list-valued `"pages"` entry, promote inside every page. -/
def process (rawEntries : List (String × PyVal)) : List (String × PyVal) :=
  let processed := dictOfPairs (normPairs rawEntries)
  match dictGet processed "pages" with
  | some (.list pages) => dictSet processed "pages" (.list (pages.map promotePage))
  | _ => processed

/-! ### Key-path enumeration (`extract_key_paths`) -/

/-- `f"{parent}.{k}" if parent else k`. -/
def joinPath (parent k : String) : String :=
  if parent = "" then k else parent ++ "." ++ k

/-- One decimal digit character. -/
def digitChar : Nat → Char
  | 0 => '0' | 1 => '1' | 2 => '2' | 3 => '3' | 4 => '4'
  | 5 => '5' | 6 => '6' | 7 => '7' | 8 => '8' | 9 => '9'
  | _ => '*'

/-- Fuelled decimal rendering (most significant digit first); any fuel
greater than the value itself suffices. -/
def natDigitsGo : Nat → Nat → List Char → List Char
  | 0, _, acc => acc
  | fuel + 1, n, acc =>
    if n < 10 then digitChar n :: acc
    else natDigitsGo fuel (n / 10) (digitChar (n % 10) :: acc)

/-- Decimal digits of a natural number (Python `str(i)` for `i ≥ 0`). -/
def natDigits (n : Nat) : List Char := natDigitsGo (n + 1) n []

/-- Python `str(i)` for a list index. -/
def natToStr (n : Nat) : String := ⟨natDigits n⟩

mutual

/-- `extract_key_paths` from `reporters/keypath_util.py`, as the list of
paths added to the result set, in traversal order (the source accumulates
them into a `set`; this list is that set's membership). -/
def extractPaths : PyVal → String → List String
  | .dict entries, parent => extractEntries entries parent
  | .list items, parent => extractItems items 0 parent
  | _, _ => []

/-- The dict loop: for each entry emit its path, then the paths of its
value below that path. -/
def extractEntries : List (String × PyVal) → String → List String
  | [], _ => []
  | (k, v) :: rest, parent =>
    joinPath parent k :: (extractPaths v (joinPath parent k) ++ extractEntries rest parent)

/-- The list loop (`enumerate(data)`): same with `str(i)` as the key. -/
def extractItems : List PyVal → Nat → String → List String
  | [], _, _ => []
  | v :: rest, i, parent =>
    joinPath parent (natToStr i) ::
      (extractPaths v (joinPath parent (natToStr i)) ++ extractItems rest (i + 1) parent)

end

/-- Sorted key paths as written to `<stem>_key_paths.txt`
(`sorted(extract_key_paths(data))`). -/
def sortedKeyPaths (data : PyVal) : List String :=
  sortStrings ((extractPaths data "").dedup)

/-! ### Resolving a key path against a tree -/

/-- Interpret a path segment as a sequence index: it must be a nonempty
all-digit string. -/
def parseIdx (seg : String) : Option Nat :=
  if seg.data ≠ [] ∧ seg.data.all Char.isDigit then some (natOfDigits seg.data)
  else Option.none

/-- Walk a tree segment by segment: mapping-key lookup at a mapping, index
lookup at a sequence; scalars have no children. -/
def resolve : PyVal → List String → Option PyVal
  | v, [] => some v
  | .dict entries, seg :: rest =>
    match dictGet entries seg with
    | some v => resolve v rest
    | Option.none => Option.none
  | .list items, seg :: rest =>
    match parseIdx seg with
    | some i =>
      match items.get? i with
      | some v => resolve v rest
      | Option.none => Option.none
    | Option.none => Option.none
  | _, _ :: _ => Option.none

/-- The segments of a path: `p.split(".")`. -/
def splitDotsStr (p : String) : List String :=
  (splitDotsL p.data).map (fun l => ⟨l⟩)

/-- Join segments into a path: `".".join(segs)`. -/
def joinDotsStr (segs : List String) : String :=
  ⟨joinDotsL (segs.map String.data)⟩

/-! ### Well-formed trees: unique, nonempty, dot-free mapping keys -/

/-- Membership test for keys. -/
def keyMem (k : String) : List String → Bool
  | [] => false
  | k0 :: rest => decide (k0 = k) || keyMem k rest

/-- No duplicate keys. -/
def nodupKeysB : List String → Bool
  | [] => true
  | k :: rest => !(keyMem k rest) && nodupKeysB rest

/-- A mapping key that key paths can address: nonempty and without `.`. -/
def goodKey (k : String) : Bool :=
  decide (k ≠ "") && k.data.all (fun c => decide (c ≠ '.'))

/-- Remove from a dict every entry whose key is in `ks` (what the
promotion loop leaves behind in `tags`). -/
def removeKeys : List (String × PyVal) → List String → List (String × PyVal)
  | [], _ => []
  | (k0, v0) :: rest, ks =>
    if keyMem k0 ks then removeKeys rest ks else (k0, v0) :: removeKeys rest ks

mutual

/-- Well-formedness of a tree for path resolution: every mapping in it has
unique, nonempty, dot-free keys. -/
def wfVal : PyVal → Bool
  | .dict entries => nodupKeysB (entries.map Prod.fst) && wfEntries entries
  | .list items => wfItems items
  | _ => true

/-- Well-formedness of dict entries. -/
def wfEntries : List (String × PyVal) → Bool
  | [] => true
  | (k, v) :: rest => goodKey k && wfVal v && wfEntries rest

/-- Well-formedness of list items. -/
def wfItems : List PyVal → Bool
  | [] => true
  | v :: rest => wfVal v && wfItems rest

end

/-! ### The per-file workflow (`run_for_file`) control flow

`run_for_file` performs IO at every stage; what the error-handling claim
is about is its control flow: which stages are attempted and which
complete, as a function of which stages raise.  Each stage is abstracted
to a boolean outcome ("raises an unexpected exception" / "returns None"),
and `runForFile` returns the trace of attempted stages in order, each
paired with whether it completed without an exception. -/

inductive Stage : Type where
  | extract : Stage
  | rawDump : Stage
  | processStage : Stage
  | processedDump : Stage
  | keypaths : Stage
  | report : Stage
deriving DecidableEq

/-- The abstracted outcomes of the fallible steps of `run_for_file`. -/
structure Outcomes : Type where
  extractorFound : Bool
  extractRaises : Bool
  extractNone : Bool
  rawDumpRaises : Bool
  processRaises : Bool
  processNone : Bool
  processedDumpRaises : Bool
  keypathsRaises : Bool
  reportRaises : Bool

/-- The control flow of `run_for_file` (workflow/workflow.py): each
`try/except` either returns early (extraction, processing) or logs and
falls through (the dump, key-path and report stages). -/
def runForFile (o : Outcomes) : List (Stage × Bool) :=
  if !o.extractorFound then []
  else
    (Stage.extract, !o.extractRaises) ::
    (if o.extractRaises then [] else
     if o.extractNone then [] else
     (Stage.rawDump, !o.rawDumpRaises) ::
     (Stage.processStage, !o.processRaises) ::
     (if o.processRaises then [] else
      if o.processNone then [] else
      [(Stage.processedDump, !o.processedDumpRaises),
       (Stage.keypaths, !o.keypathsRaises),
       (Stage.report, !o.reportRaises)]))

/-- The stages attempted in a run. -/
def attempted (o : Outcomes) (s : Stage) : Bool :=
  (runForFile o).any (fun p => decide (p.1 = s))

/-- The stages whose output was produced (attempted and completed). -/
def completed (o : Outcomes) (s : Stage) : Bool :=
  (runForFile o).any (fun p => decide (p.1 = s) && p.2)

end IMR

namespace IMR

theorem toCamelCase_imageWidth : toCamelCase "Image Width" = "imageWidth" := by decide

theorem toCamelCase_bits : toCamelCase "BITS_PER_SAMPLE" = "bITSPerSample" := by decide

theorem specToCamelCase_bits : specToCamelCase "BITS_PER_SAMPLE" = "bITSPERSAMPLE" := by
  decide

theorem subIndices_digitseg : subIndices "a.b.0" = "a.b.[]" := by decide

theorem subIndices_mixedseg : subIndices "a.12b" = "a.[]b" := by decide

theorem subIndicesClaim_mixedseg : subIndicesClaim "a.12b" = "a.12b" := by decide

theorem subIndicesAm_mixedseg : subIndicesAm "a.12b" = "a.[]b" := by decide

theorem template_example : template_key_paths ["a.b.1", "a.b.0", "c"] = ["a.b.[]", "c"] := by
  decide

theorem coerce_int_example : coerceScalar "42" = .int 42 := rfl

theorem coerce_int_nl_example : coerceScalar "42\n" = .int 42 := rfl

theorem coerce_float_example : coerceScalar "-3.14" = .float (-(157 / 50 : ℚ)) := by
  have h1 : floatValOf "-3.14".data = -(mkRat 314 100) := by decide
  have h2 : -(mkRat 314 100) = -(157 / 50 : ℚ) := by
    norm_num [Rat.mkRat_eq_div]
  calc coerceScalar "-3.14" = .float (floatValOf "-3.14".data) := rfl
    _ = .float (-(157 / 50 : ℚ)) := by rw [h1, h2]

theorem extract_example :
    sortedKeyPaths (.dict [("a", .dict [("b", .list [.int 1, .int 2])]), ("c", .int 3)]) =
      ["a", "a.b", "a.b.0", "a.b.1", "c"] := by decide

theorem resolve_example :
    resolve (.dict [("x.y", .int 1)]) (splitDotsStr "x.y") = Option.none := by
  have h : splitDotsStr "x.y" = ["x", "y"] := by decide
  rw [h]
  rfl

theorem wf_example :
    wfVal (.dict [("a", .dict [("b", .list [.int 1, .int 2])]), ("c", .int 3)]) = true := by
  decide

/-! ## Claim C2: the two casing scenarios

`"Image Width"` is right, but for `"BITS_PER_SAMPLE"` the underscores are
separators, so the multi-token branch runs and `str.capitalize()`
lower-cases the tails: the code returns `"bITSPerSample"`, not the spec's
`"bitsPERSAMPLE"`. -/

/-- C2 counterexample: `_to_camel_case("BITS_PER_SAMPLE")` is
`"bITSPerSample"`, not `"bitsPERSAMPLE"` as the claim states. -/
theorem c2_counterexample :
    toCamelCase "BITS_PER_SAMPLE" ≠ "bitsPERSAMPLE" ∧
      toCamelCase "BITS_PER_SAMPLE" = "bITSPerSample" := by
  constructor
  · decide
  · decide

/-- C2 (amended): `_to_camel_case("Image Width") = "imageWidth"` and
`_to_camel_case("BITS_PER_SAMPLE") = "bITSPerSample"`. -/
theorem c2_amended_eqs :
    toCamelCase "Image Width" = "imageWidth" ∧
      toCamelCase "BITS_PER_SAMPLE" = "bITSPerSample" := by
  constructor
  · decide
  · decide

/-! ## Claim C4: end-to-end key-path/template scenario

The key-path list is as claimed, but the template set is not: the path
`"a.b"` is in the key-path set and is its own template (it has no numeric
segment), so it survives into the template set alongside `"a.b.[]"`.  The
claimed output `{"a", "a.b.[]", "c"}` is missing `"a.b"`. -/

/-- C4 counterexample: for the tree `{"a": {"b": [1, 2]}, "c": 3}` the
template set is `{"a", "a.b", "a.b.[]", "c"}`, not the claimed
`{"a", "a.b.[]", "c"}`. -/
theorem c4_counterexample :
    template_key_paths
        (extractPaths (.dict [("a", .dict [("b", .list [.int 1, .int 2])]), ("c", .int 3)]) "") =
      ["a", "a.b", "a.b.[]", "c"] ∧
      (["a", "a.b", "a.b.[]", "c"] : List String) ≠ ["a", "a.b.[]", "c"] := by
  constructor
  · decide
  · decide

/-- C4 (amended): for the tree `{"a": {"b": [1, 2]}, "c": 3}` the sorted
key paths are `["a", "a.b", "a.b.0", "a.b.1", "c"]` and the templates are
exactly `{"a", "a.b", "a.b.[]", "c"}` (sorted enumeration). -/
theorem c4_end_to_end :
    sortedKeyPaths (.dict [("a", .dict [("b", .list [.int 1, .int 2])]), ("c", .int 3)]) =
        ["a", "a.b", "a.b.0", "a.b.1", "c"] ∧
      template_key_paths
          (extractPaths (.dict [("a", .dict [("b", .list [.int 1, .int 2])]), ("c", .int 3)]) "") =
        ["a", "a.b", "a.b.[]", "c"] := by
  constructor
  · decide
  · decide

/-! ## Claim C10: key-normalization collisions drop the earlier entry -/

/-- C10: if two distinct keys of a mapping normalize to the same camelCase
form, the normalized mapping holds a single entry under that key, with the
normalized value of the key that occurs later in iteration order. -/
theorem c10_collision (k1 k2 : String) (v1 v2 : PyVal) (_hne : k1 ≠ k2)
    (hcoll : toCamelCase k1 = toCamelCase k2) :
    normalize_recursively (.dict [(k1, v1), (k2, v2)]) =
      .dict [(toCamelCase k2, normalize_recursively v2)] := by
  simp only [normalize_recursively, normPairs, dictOfPairs, List.foldl, dictSet, hcoll,
    if_pos]

/-- C10 witness: `"image_width"` and `"imageWidth"` collide; the later
entry's value survives. -/
theorem c10_collision_witness :
    normalize_recursively (.dict [("image_width", .str "1"), ("imageWidth", .str "2")]) =
      .dict [("imageWidth", .int 2)] := by
  have h := c10_collision "image_width" "imageWidth" (.str "1") (.str "2")
    (by decide) (by decide)
  exact h.trans (by rfl)

/-! ## Claim C9: error handling in `run_for_file`

Only the extraction and processing `try` blocks `return` on failure; the
raw-dump, processed-dump, key-path and report blocks log and fall through,
so later stages *are* attempted after those failures. -/

/-- Outcomes where only the raw-metadata dump raises. -/
def oRawDumpFails : Outcomes := ⟨true, false, false, true, false, false, false, false, false⟩

/-- C9 counterexample: when the raw-metadata dump raises, the claim says
no later stage is attempted, but processing, the processed dump, the
key-path generation and the report are all still attempted. -/
theorem c9_counterexample :
    completed oRawDumpFails Stage.rawDump = false ∧
      attempted oRawDumpFails Stage.processStage = true ∧
      attempted oRawDumpFails Stage.keypaths = true ∧
      attempted oRawDumpFails Stage.report = true := by
  decide

set_option maxHeartbeats 2000000 in
/-- C9 (amended): an exception in extraction or in processing
(normalization) aborts all later stages; an exception in the raw dump,
processed dump, key-path generation or report generation skips that
stage's own output but later stages are still attempted. -/
theorem c9_amended (o : Outcomes) :
    (o.extractRaises = true → attempted o Stage.rawDump = false ∧
      attempted o Stage.processStage = false ∧ attempted o Stage.processedDump = false ∧
      attempted o Stage.keypaths = false ∧ attempted o Stage.report = false) ∧
    (o.processRaises = true → attempted o Stage.processedDump = false ∧
      attempted o Stage.keypaths = false ∧ attempted o Stage.report = false) ∧
    (o.rawDumpRaises = true → completed o Stage.rawDump = false) ∧
    (o.processedDumpRaises = true → completed o Stage.processedDump = false) ∧
    (o.keypathsRaises = true → completed o Stage.keypaths = false) ∧
    (o.reportRaises = true → completed o Stage.report = false) ∧
    (o.extractorFound = true → o.extractRaises = false → o.extractNone = false →
      o.processRaises = false → o.processNone = false →
      attempted o Stage.processedDump = true ∧ attempted o Stage.keypaths = true ∧
        attempted o Stage.report = true) := by
  obtain ⟨a, b, c, d, e, f, g, h, i⟩ := o
  refine ⟨?_, ?_, ?_, ?_, ?_, ?_, ?_⟩ <;>
    (cases a <;> cases b <;> cases c <;> cases d <;> cases e <;> cases f <;> cases g <;>
      cases h <;> cases i <;> decide)

/-- C9 witness: with every stage healthy except a raising processed dump,
the processed dump's output is skipped but the key-path and report stages
still run. -/
theorem c9_amended_witness :
    completed ⟨true, false, false, false, false, false, true, false, false⟩
        Stage.processedDump = false ∧
      attempted ⟨true, false, false, false, false, false, true, false, false⟩
        Stage.keypaths = true := by
  have h := c9_amended ⟨true, false, false, false, false, false, true, false, false⟩
  exact ⟨h.2.2.2.1 rfl, (h.2.2.2.2.2.2 rfl rfl rfl rfl rfl).2.1⟩

/-! ## Claim C6 counterexample: the `$` anchor accepts one trailing newline -/

/-- C6 counterexample: `re.match(r"^-?\d+$", "42\n")` matches (Python `$`
also matches just before a single trailing newline) and `int("42\n")`
is `42`, so the string `"42\n"` — which the claim says is left unchanged —
is coerced to the integer `42`. -/
theorem c6_counterexample :
    normalize_recursively (.str "42\n") = .int 42 ∧
      normalize_recursively (.str "42\n") ≠ .str "42\n" := by
  refine ⟨rfl, fun h => ?_⟩
  have h2 : PyVal.int 42 = PyVal.str "42\n" := h
  cases h2

theorem process_example1 :
    process [("pages", .list [.dict [("tags", .dict [("imageWidth", .str "100"), ("fooBar", .str "x")])]])] =
      [("pages", .list [.dict [("tags", .dict [("fooBar", .str "x")]), ("imageWidth", .int 100)]])] := rfl

/-! ## Dict lemmas -/

theorem dictGet_dictSet_self (d : List (String × PyVal)) (k : String) (v : PyVal) :
    dictGet (dictSet d k v) k = some v := by
  induction d with
  | nil => simp [dictSet, dictGet]
  | cons p rest ih =>
    obtain ⟨k0, v0⟩ := p
    by_cases h : k0 = k
    · simp [dictSet, dictGet, h]
    · simp [dictSet, dictGet, h, ih]

theorem dictGet_dictSet_ne (d : List (String × PyVal)) {k1 k : String} (v : PyVal)
    (h : k1 ≠ k) : dictGet (dictSet d k1 v) k = dictGet d k := by
  induction d with
  | nil => simp [dictSet, dictGet, h]
  | cons p rest ih =>
    obtain ⟨k0, v0⟩ := p
    by_cases h0 : k0 = k1
    · subst h0
      simp [dictSet, dictGet, h]
    · simp [dictSet, dictGet, h0, ih]

theorem dictGet_dictRemove_ne (d : List (String × PyVal)) {k1 k : String} (h : k1 ≠ k) :
    dictGet (dictRemove d k1) k = dictGet d k := by
  induction d with
  | nil => rfl
  | cons p rest ih =>
    obtain ⟨k0, v0⟩ := p
    by_cases h0 : k0 = k1
    · subst h0
      rw [dictRemove, if_pos rfl, ih, dictGet, if_neg h]
    · rw [dictRemove, if_neg h0, dictGet, dictGet]
      by_cases hk : k0 = k
      · rw [if_pos hk, if_pos hk]
      · rw [if_neg hk, if_neg hk, ih]

theorem dictGet_dictRemove_self (d : List (String × PyVal)) (k : String) :
    dictGet (dictRemove d k) k = Option.none := by
  induction d with
  | nil => simp [dictRemove, dictGet]
  | cons p rest ih =>
    obtain ⟨k0, v0⟩ := p
    by_cases h0 : k0 = k
    · simp [dictRemove, dictGet, h0, ih]
    · simp [dictRemove, dictGet, h0, ih]

/-! ## Promotion-loop lemmas (claim C5) -/

theorem removeKeys_nil (tags : List (String × PyVal)) : removeKeys tags [] = tags := by
  induction tags with
  | nil => rfl
  | cons p rest ih =>
    obtain ⟨k0, v0⟩ := p
    simp [removeKeys, keyMem, ih]

theorem removeKeys_dictRemove (tags : List (String × PyVal)) (k : String) (ks : List String) :
    removeKeys (dictRemove tags k) ks = removeKeys tags (k :: ks) := by
  induction tags with
  | nil => rfl
  | cons p rest ih =>
    obtain ⟨k0, v0⟩ := p
    by_cases h0 : k0 = k
    · subst h0
      simp [dictRemove, removeKeys, keyMem, ih]
    · have hne : ¬ (k = k0) := fun he => h0 (he ▸ rfl)
      simp only [dictRemove, if_neg h0, removeKeys, keyMem, hne, decide_eq_false hne,
        Bool.false_or]
      by_cases hm : keyMem k0 ks
      · simp [hm, ih]
      · simp [hm, ih]

theorem removeKeys_skip (tags : List (String × PyVal)) (k : String) (ks : List String)
    (h : dictGet tags k = Option.none) : removeKeys tags (k :: ks) = removeKeys tags ks := by
  induction tags with
  | nil => rfl
  | cons p rest ih =>
    obtain ⟨k0, v0⟩ := p
    by_cases h0 : k0 = k
    · rw [dictGet, if_pos h0] at h
      cases h
    · rw [dictGet, if_neg h0] at h
      have hne : ¬ (k = k0) := fun he => h0 (he ▸ rfl)
      simp only [removeKeys, keyMem, decide_eq_false hne, Bool.false_or]
      by_cases hm : keyMem k0 ks
      · simp [hm, ih h]
      · simp [hm, ih h]

theorem promote_foldl_tags (ks : List String) :
    ∀ (page tags : List (String × PyVal)),
      (ks.foldl promoteStep (page, tags)).2 = removeKeys tags ks := by
  induction ks with
  | nil => intro page tags; simp [removeKeys_nil]
  | cons k ks ih =>
    intro page tags
    rw [List.foldl_cons]
    cases hg : dictGet tags k with
    | none =>
      have hstep : promoteStep (page, tags) k = (page, tags) := by
        simp [promoteStep, hg]
      rw [hstep, ih, removeKeys_skip tags k ks hg]
    | some v =>
      have hstep : promoteStep (page, tags) k = (dictSet page k v, dictRemove tags k) := by
        simp [promoteStep, hg]
      rw [hstep, ih, removeKeys_dictRemove]

theorem promote_foldl_get_notmem (ks : List String) :
    ∀ (page tags : List (String × PyVal)) (k : String), keyMem k ks = false →
      dictGet ((ks.foldl promoteStep (page, tags)).1) k = dictGet page k := by
  induction ks with
  | nil => intro page tags k _; rfl
  | cons k0 ks ih =>
    intro page tags k h
    rw [keyMem, Bool.or_eq_false_iff] at h
    obtain ⟨h1, h2⟩ := h
    have hk0 : k0 ≠ k := by simpa using h1
    rw [List.foldl_cons]
    cases hg : dictGet tags k0 with
    | none =>
      have hstep : promoteStep (page, tags) k0 = (page, tags) := by
        simp [promoteStep, hg]
      rw [hstep, ih _ _ _ h2]
    | some v =>
      have hstep : promoteStep (page, tags) k0 = (dictSet page k0 v, dictRemove tags k0) := by
        simp [promoteStep, hg]
      rw [hstep, ih _ _ _ h2, dictGet_dictSet_ne _ _ hk0]

theorem promote_foldl_get_mem (ks : List String) :
    ∀ (page tags : List (String × PyVal)) (k : String) (v : PyVal),
      nodupKeysB ks = true → keyMem k ks = true → dictGet tags k = some v →
      dictGet ((ks.foldl promoteStep (page, tags)).1) k = some v := by
  induction ks with
  | nil => intro page tags k v _ hm _; cases hm
  | cons k0 ks ih =>
    intro page tags k v hnd hm hv
    rw [nodupKeysB, Bool.and_eq_true] at hnd
    obtain ⟨hnd1, hnd2⟩ := hnd
    rw [keyMem, Bool.or_eq_true] at hm
    rw [List.foldl_cons]
    by_cases hk0 : k0 = k
    · subst hk0
      have hstep : promoteStep (page, tags) k0 = (dictSet page k0 v, dictRemove tags k0) := by
        simp [promoteStep, hv]
      rw [hstep]
      have hnm : keyMem k0 ks = false := by
        rcases hb : keyMem k0 ks with _ | _
        · rfl
        · rw [hb] at hnd1; cases hnd1
      rw [promote_foldl_get_notmem ks _ _ _ hnm, dictGet_dictSet_self]
    · have hmk : keyMem k ks = true := by
        rcases hm with hm | hm
        · exact absurd (of_decide_eq_true hm) hk0
        · exact hm
      cases hg : dictGet tags k0 with
      | none =>
        have hstep : promoteStep (page, tags) k0 = (page, tags) := by
          simp [promoteStep, hg]
        rw [hstep, ih _ _ _ _ hnd2 hmk hv]
      | some v0 =>
        have hstep : promoteStep (page, tags) k0 = (dictSet page k0 v0, dictRemove tags k0) := by
          simp [promoteStep, hg]
        rw [hstep]
        have hv2 : dictGet (dictRemove tags k0) k = some v := by
          rw [dictGet_dictRemove_ne _ hk0, hv]
        exact ih _ _ _ _ hnd2 hmk hv2

/-! ## Claim C5: promotion of allowlisted tag keys -/

/-- C5: after full normalization, for a page mapping with a dict-valued
`tags`, `process`'s per-page promotion moves every allowlisted key that is
present in `tags` into the page, removes it from `tags`, and drops `tags`
entirely if it ends up empty; in particular the two concrete scenarios of
the spec hold. -/
theorem c5_promotion :
    (∀ (entries tagsE : List (String × PyVal)),
        dictGet entries "tags" = some (.dict tagsE) →
        ∃ resE, promotePage (.dict entries) = .dict resE ∧
          (∀ k v, keyMem k keysToPromote = true → dictGet tagsE k = some v →
            dictGet resE k = some v) ∧
          (removeKeys tagsE keysToPromote = [] → dictGet resE "tags" = Option.none) ∧
          (removeKeys tagsE keysToPromote ≠ [] →
            dictGet resE "tags" = some (.dict (removeKeys tagsE keysToPromote)))) ∧
    process
        [("pages", .list [.dict [("tags", .dict [("imageWidth", .str "100"), ("fooBar", .str "x")])]])] =
      [("pages", .list [.dict [("tags", .dict [("fooBar", .str "x")]), ("imageWidth", .int 100)]])] ∧
    process [("pages", .list [.dict [("tags", .dict [("imageWidth", .str "100")])]])] =
      [("pages", .list [.dict [("imageWidth", .int 100)]])] := by
  refine ⟨?_, rfl, rfl⟩
  intro entries tagsE h
  have htags2 : (keysToPromote.foldl promoteStep (entries, tagsE)).2 =
      removeKeys tagsE keysToPromote := promote_foldl_tags _ _ _
  have hmoved : ∀ k v, keyMem k keysToPromote = true → dictGet tagsE k = some v →
      dictGet ((keysToPromote.foldl promoteStep (entries, tagsE)).1) k = some v := by
    intro k v hkm hkv
    exact promote_foldl_get_mem _ _ _ _ _ (by decide) hkm hkv
  have hknt : ∀ k, keyMem k keysToPromote = true → ("tags" : String) ≠ k := by
    intro k hkm he
    rw [← he] at hkm
    exact absurd hkm (by decide)
  by_cases hemp : removeKeys tagsE keysToPromote = []
  · refine ⟨dictRemove ((keysToPromote.foldl promoteStep (entries, tagsE)).1) "tags",
      ?_, ?_, ?_, ?_⟩
    · simp only [promotePage, h]
      rw [htags2, hemp]
      rfl
    · intro k v hkm hkv
      rw [dictGet_dictRemove_ne _ (hknt k hkm)]
      exact hmoved k v hkm hkv
    · intro _
      exact dictGet_dictRemove_self _ _
    · intro hne
      exact absurd hemp hne
  · refine ⟨dictSet ((keysToPromote.foldl promoteStep (entries, tagsE)).1) "tags"
      (.dict (removeKeys tagsE keysToPromote)), ?_, ?_, ?_, ?_⟩
    · simp only [promotePage, h]
      rw [htags2]
      have : (removeKeys tagsE keysToPromote).isEmpty = false := by
        rcases hl : removeKeys tagsE keysToPromote with _ | ⟨p, rest⟩
        · exact absurd hl hemp
        · rfl
      rw [this]
      rfl
    · intro k v hkm hkv
      rw [dictGet_dictSet_ne _ _ (hknt k hkm)]
      exact hmoved k v hkm hkv
    · intro hc
      exact absurd hc hemp
    · intro _
      exact dictGet_dictSet_self _ _ _

/-- C5 witness: a page whose `tags` holds only `imageWidth` gets the value
promoted and the emptied `tags` removed. -/
theorem c5_promotion_witness :
    ∃ resE, promotePage (.dict [("tags", .dict [("imageWidth", .int 5)])]) = .dict resE ∧
      dictGet resE "imageWidth" = some (.int 5) ∧ dictGet resE "tags" = Option.none := by
  obtain ⟨resE, h1, h2, h3, _⟩ :=
    c5_promotion.1 [("tags", .dict [("imageWidth", .int 5)])] [("imageWidth", .int 5)] rfl
  exact ⟨resE, h1, h2 "imageWidth" (.int 5) (by decide) rfl, h3 rfl⟩

/-! ## The segment-level characterization of the template scan (claims C3, C8) -/

theorem splitDotsL_ne_nil : ∀ l : List Char, splitDotsL l ≠ []
  | [] => by simp [splitDotsL]
  | c :: rest => by
    rw [splitDotsL]
    by_cases h : c = '.'
    · simp [h]
    · rw [if_neg h]
      rcases hs : splitDotsL rest with _ | ⟨s, ss⟩ <;> simp

theorem scanGo_glue : ∀ l : List Char,
    scanGo .plain l = gluePlain (splitDotsL l) ∧
    scanGo .afterDot l = glueTail (splitDotsL l) ∧
    scanGo .inDigits l = glueDigits (splitDotsL l) := by
  intro l
  induction l with
  | nil => exact ⟨rfl, rfl, rfl⟩
  | cons c rest ih =>
    obtain ⟨ihP, ihD, ihG⟩ := ih
    obtain ⟨s0, ss, hs⟩ : ∃ s0 ss, splitDotsL rest = s0 :: ss := by
      rcases h : splitDotsL rest with _ | ⟨s0, ss⟩
      · exact absurd h (splitDotsL_ne_nil rest)
      · exact ⟨s0, ss, rfl⟩
    by_cases hdot : c = '.'
    · subst hdot
      have hsplit : splitDotsL ('.' :: rest) = [] :: s0 :: ss := by
        rw [splitDotsL, if_pos rfl, hs]
      refine ⟨?_, ?_, ?_⟩
      · show scanGo .afterDot rest = _
        rw [ihD, hs, hsplit]
        simp [gluePlain, glueTail]
      · show ('.' :: scanGo .afterDot rest : List Char) = _
        rw [ihD, hs, hsplit]
        simp [glueTail, collapseAm]
      · show scanGo .afterDot rest = _
        rw [ihD, hs, hsplit]
        simp [glueDigits, glueTail]
    · have hsplit : splitDotsL (c :: rest) = (c :: s0) :: ss := by
        rw [splitDotsL, if_neg hdot, hs]
      by_cases hdig : c.isDigit
      · refine ⟨?_, ?_, ?_⟩
        · simp only [scanGo, if_neg hdot]
          rw [ihP, hs, hsplit]
          simp [gluePlain]
        · simp only [scanGo, if_pos hdig]
          rw [ihG, hs, hsplit]
          simp [glueDigits, glueTail, collapseAm, hdig, List.dropWhile_cons]
        · simp only [scanGo, if_pos hdig]
          rw [ihG, hs, hsplit]
          simp [glueDigits, hdig, List.dropWhile_cons]
      · refine ⟨?_, ?_, ?_⟩
        · simp only [scanGo, if_neg hdot]
          rw [ihP, hs, hsplit]
          simp [gluePlain]
        · simp only [scanGo, if_neg hdot, hdig, Bool.false_eq_true, if_false]
          rw [ihP, hs, hsplit]
          simp [gluePlain, glueTail, collapseAm, hdig]
        · simp only [scanGo, if_neg hdot, hdig, Bool.false_eq_true, if_false]
          rw [ihP, hs, hsplit]
          simp [glueDigits, gluePlain, hdig, List.dropWhile_cons]

theorem joinDotsL_glue (ss : List (List Char)) :
    ∀ s0 : List Char, joinDotsL (s0 :: ss.map collapseAm) = s0 ++ glueTail ss := by
  induction ss with
  | nil => intro s0; simp [joinDotsL, glueTail]
  | cons t ts ih =>
    intro s0
    calc joinDotsL (s0 :: (t :: ts).map collapseAm)
        = s0 ++ '.' :: joinDotsL (collapseAm t :: ts.map collapseAm) := rfl
      _ = s0 ++ '.' :: (collapseAm t ++ glueTail ts) := by rw [ih (collapseAm t)]
      _ = s0 ++ glueTail (t :: ts) := by simp [glueTail]

theorem subIndices_eq_am (p : String) : subIndices p = subIndicesAm p := by
  have h := (scanGo_glue p.data).1
  rcases hs : splitDotsL p.data with _ | ⟨s0, ss⟩
  · exact absurd hs (splitDotsL_ne_nil _)
  · have hr : subIndicesAm p = ⟨joinDotsL (s0 :: ss.map collapseAm)⟩ := by
      rw [subIndicesAm, hs]
    rw [subIndices, h, hs, hr, joinDotsL_glue]
    rfl

/-- C3 counterexample: the code's template map rewrites the segment
`"12b"` of the path `"a.12b"` into `"[]b"` even though that segment is not
entirely digits; the claim says such a segment is left unchanged. -/
theorem c3_counterexample :
    template_key_paths ["a.12b"] = ["a.[]b"] ∧
      template_key_paths_claim ["a.12b"] = ["a.12b"] ∧
      (["a.[]b"] : List String) ≠ ["a.12b"] := by
  refine ⟨by decide, by decide, by decide⟩

/-- C3 (amended): for every set of key paths, `template_key_paths` splits
each path on `.`, leaves the leading segment unchanged, replaces the
maximal leading digit run of every non-leading segment that begins with a
decimal digit by the wildcard `[]` (so an entirely-digit segment becomes
`[]`, and a segment that merely begins with digits keeps its non-digit
tail), leaves all other segments unchanged, rejoins with `.`, and returns
the deduplicated, lexicographically ascending sorted list of the
results. -/
theorem c3_amended (paths : List String) :
    template_key_paths paths = template_key_paths_am paths := by
  rw [template_key_paths, template_key_paths_am]
  have : paths.map subIndices = paths.map subIndicesAm := by
    induction paths with
    | nil => rfl
    | cons p rest ih => rw [List.map_cons, List.map_cons, subIndices_eq_am, ih]
  rw [this]

/-! ## Idempotence of the template map (claim C8) -/

theorem collapseAm_dotfree {t : List Char} (h : ∀ c ∈ t, c ≠ '.') :
    ∀ c ∈ collapseAm t, c ≠ '.' := by
  rcases t with _ | ⟨c0, rest⟩
  · simp [collapseAm]
  · rw [collapseAm]
    by_cases hd : c0.isDigit
    · rw [if_pos hd]
      intro c hc
      rw [List.mem_cons] at hc
      rcases hc with rfl | hc
      · decide
      · rw [List.mem_cons] at hc
        rcases hc with rfl | hc
        · decide
        · exact h c ((List.dropWhile_sublist _).subset hc)
    · rw [if_neg hd]
      exact h

theorem collapseAm_idem (t : List Char) : collapseAm (collapseAm t) = collapseAm t := by
  rcases t with _ | ⟨c0, rest⟩
  · rfl
  · rw [collapseAm]
    by_cases hd : c0.isDigit
    · rw [if_pos hd, collapseAm, if_neg (by decide)]
    · rw [if_neg hd, collapseAm, if_neg hd]

theorem splitDotsL_dotfree : ∀ l : List Char, ∀ t ∈ splitDotsL l, ∀ c ∈ t, c ≠ '.'
  | [] => by simp [splitDotsL]
  | c :: rest => by
    intro t ht
    by_cases hdot : c = '.'
    · subst hdot
      rw [splitDotsL, if_pos rfl, List.mem_cons] at ht
      rcases ht with rfl | ht
      · simp
      · exact splitDotsL_dotfree rest t ht
    · rw [splitDotsL, if_neg hdot] at ht
      rcases hs : splitDotsL rest with _ | ⟨s0, ss⟩
      · exact absurd hs (splitDotsL_ne_nil rest)
      · rw [hs, List.mem_cons] at ht
        rcases ht with rfl | ht
        · intro x hx
          rw [List.mem_cons] at hx
          rcases hx with rfl | hx
          · exact hdot
          · exact splitDotsL_dotfree rest s0 (hs ▸ List.mem_cons_self s0 ss) x hx
        · exact splitDotsL_dotfree rest t (hs ▸ List.mem_cons_of_mem s0 ht)

theorem splitDotsL_append_seg : ∀ (t l : List Char) (s0 : List Char) (ss : List (List Char)),
    (∀ c ∈ t, c ≠ '.') → splitDotsL l = s0 :: ss → splitDotsL (t ++ l) = (t ++ s0) :: ss
  | [], l, s0, ss => fun _ h => by simpa using h
  | c :: t2, l, s0, ss => fun h hl => by
    have hc : c ≠ '.' := h c (List.mem_cons_self c t2)
    have ih := splitDotsL_append_seg t2 l s0 ss (fun x hx => h x (List.mem_cons_of_mem c hx)) hl
    rw [List.cons_append, splitDotsL, if_neg hc, ih, List.cons_append]

theorem splitDotsL_joinDotsL : ∀ segs : List (List Char), segs ≠ [] →
    (∀ t ∈ segs, ∀ c ∈ t, c ≠ '.') → splitDotsL (joinDotsL segs) = segs
  | [] => fun h _ => absurd rfl h
  | [t] => fun _ h => by
    have h0 : splitDotsL ([] : List Char) = [[]] := rfl
    have h2 := splitDotsL_append_seg t [] [] [] (h t (List.mem_cons_self t [])) h0
    show splitDotsL t = [t]
    simpa using h2
  | t :: t2 :: rest => fun _ h => by
    have htail : splitDotsL (joinDotsL (t2 :: rest)) = t2 :: rest :=
      splitDotsL_joinDotsL (t2 :: rest) (by simp)
        (fun x hx => h x (List.mem_cons_of_mem t hx))
    have hdotted : splitDotsL ('.' :: joinDotsL (t2 :: rest)) = [] :: t2 :: rest := by
      rw [splitDotsL, if_pos rfl, htail]
    have h2 := splitDotsL_append_seg t ('.' :: joinDotsL (t2 :: rest)) [] (t2 :: rest)
      (h t (List.mem_cons_self t _)) hdotted
    have hJ : joinDotsL (t :: t2 :: rest) = t ++ '.' :: joinDotsL (t2 :: rest) := rfl
    rw [hJ, h2]
    simp

theorem subIndices_idem (p : String) : subIndices (subIndices p) = subIndices p := by
  rcases hs : splitDotsL p.data with _ | ⟨s0, ss⟩
  · exact absurd hs (splitDotsL_ne_nil _)
  have h1 : subIndices p = ⟨joinDotsL (s0 :: ss.map collapseAm)⟩ := by
    rw [subIndices_eq_am, subIndicesAm, hs]
  have hdf : ∀ t ∈ s0 :: ss.map collapseAm, ∀ c ∈ t, c ≠ '.' := by
    intro t ht
    rw [List.mem_cons] at ht
    rcases ht with rfl | ht
    · exact splitDotsL_dotfree p.data t (hs ▸ List.mem_cons_self t ss)
    · rw [List.mem_map] at ht
      obtain ⟨u, hu, he⟩ := ht
      subst he
      exact collapseAm_dotfree
        (splitDotsL_dotfree p.data u (hs ▸ List.mem_cons_of_mem s0 hu))
  have h2 : splitDotsL (joinDotsL (s0 :: ss.map collapseAm)) = s0 :: ss.map collapseAm :=
    splitDotsL_joinDotsL _ (by simp) hdf
  have h2m : splitDotsL ((⟨joinDotsL (s0 :: ss.map collapseAm)⟩ : String)).data =
      s0 :: ss.map collapseAm := h2
  have hmapidem : (ss.map collapseAm).map collapseAm = ss.map collapseAm := by
    rw [List.map_map]
    exact List.map_congr_left (fun t _ => collapseAm_idem t)
  rw [h1, subIndices_eq_am, subIndicesAm]
  simp only [h2m]
  rw [hmapidem]

/-- C8: template generation is idempotent — applying `template_key_paths`
to the set of templates it produced yields the identical sorted list. -/
theorem c8_template_idem (paths : List String) :
    template_key_paths (template_key_paths paths) = template_key_paths paths := by
  rw [template_key_paths, template_key_paths]
  have hmem : ∀ x ∈ sortStrings ((paths.map subIndices).dedup), subIndices x = x := by
    intro x hx
    rw [sortStrings, List.mem_insertionSort, List.mem_dedup, List.mem_map] at hx
    obtain ⟨y, _, he⟩ := hx
    rw [← he, subIndices_idem]
  have h1 : (sortStrings ((paths.map subIndices).dedup)).map subIndices =
      sortStrings ((paths.map subIndices).dedup) := by
    calc (sortStrings ((paths.map subIndices).dedup)).map subIndices
        = (sortStrings ((paths.map subIndices).dedup)).map id :=
          List.map_congr_left (fun a ha => hmem a ha)
      _ = sortStrings ((paths.map subIndices).dedup) := List.map_id _
  rw [h1]
  have hnd : (sortStrings ((paths.map subIndices).dedup)).Nodup := by
    rw [sortStrings]
    exact (List.perm_insertionSort StrLeR _).nodup_iff.mpr (List.nodup_dedup _)
  rw [List.dedup_eq_self.mpr hnd, sortStrings, sortStrings]
  exact List.Sorted.insertionSort_eq (List.sorted_insertionSort StrLeR _)

/-! ## Scalar-coercion lemmas (claim C6) -/

theorem mem_digits_ne {l : List Char} (hd : l.all Char.isDigit = true) {c : Char}
    (hc : c ∈ l) {d : Char} (hnd : d.isDigit = false) : c ≠ d := by
  intro he
  rw [List.all_eq_true] at hd
  have h2 := hd c hc
  rw [he, hnd] at h2
  cases h2

theorem mem_of_getLastQ : ∀ {l : List Char} {x : Char}, l.getLast? = some x → x ∈ l
  | [], x => by intro h; cases h
  | [a], x => by
    intro h
    rw [List.getLast?_singleton] at h
    cases h
    exact List.mem_singleton_self a
  | a :: b :: rest, x => by
    intro h
    rw [List.getLast?_cons_cons] at h
    exact List.mem_cons_of_mem a (mem_of_getLastQ h)

theorem stripNL_eq_self {l : List Char} (h : ∀ x ∈ l, x ≠ '\n') : stripNL l = l := by
  rw [stripNL]
  by_cases hc : l.getLast? = some '\n'
  · exact absurd rfl (h '\n' (mem_of_getLastQ hc))
  · rw [if_neg hc]

theorem stripNL_concat (l : List Char) : stripNL (l ++ ['\n']) = l := by
  rw [stripNL, if_pos (List.getLast?_concat l), List.dropLast_concat]

theorem startsMinus_of_digits {l : List Char} (hd : l.all Char.isDigit = true) :
    startsMinus l = false := by
  rcases l with _ | ⟨c, rest⟩
  · rfl
  · rw [List.all_cons, Bool.and_eq_true] at hd
    rw [startsMinus, decide_eq_false (mem_digits_ne (l := [c]) (by simp [hd.1])
      (List.mem_singleton_self c) (by decide))]

theorem dropMinus_of_not_minus {l : List Char} (h : startsMinus l = false) :
    dropMinus l = l := by
  rcases l with _ | ⟨c, rest⟩
  · rfl
  · rw [startsMinus] at h
    rw [dropMinus, if_neg (of_decide_eq_false h)]

theorem coerce_digits (ds : List Char) (hne : ds ≠ []) (hd : ds.all Char.isDigit = true) :
    coerceScalar ⟨ds⟩ = .int (natOfDigits ds) := by
  have hstrip : stripNL ds = ds :=
    stripNL_eq_self (fun x hx => mem_digits_ne hd hx (by decide))
  have hsm : startsMinus ds = false := startsMinus_of_digits hd
  have hdm : dropMinus ds = ds := dropMinus_of_not_minus hsm
  have hie : ds.isEmpty = false := by
    rcases ds with _ | ⟨c, rest⟩
    · exact absurd rfl hne
    · rfl
  have hmatch : matchesIntPat ds = true := by
    rw [matchesIntPat, hstrip, isIntCore, hdm, hie, hd]
    rfl
  have hval : intValOf ds = (natOfDigits ds : Int) := by
    simp only [intValOf, hstrip, hsm, hdm, Bool.false_eq_true, if_false]
  show coerceScalar (⟨ds⟩ : String) = _
  rw [coerceScalar, if_pos hmatch, hval]

theorem coerce_minus_digits (ds : List Char) (hne : ds ≠ [])
    (hd : ds.all Char.isDigit = true) :
    coerceScalar ⟨'-' :: ds⟩ = .int (-(natOfDigits ds : Int)) := by
  have hstrip : stripNL ('-' :: ds) = '-' :: ds := by
    refine stripNL_eq_self ?_
    intro x hx
    rw [List.mem_cons] at hx
    rcases hx with rfl | hx
    · decide
    · exact mem_digits_ne hd hx (by decide)
  have hdm : dropMinus ('-' :: ds) = ds := by rw [dropMinus, if_pos rfl]
  have hie : ds.isEmpty = false := by
    rcases ds with _ | ⟨c, rest⟩
    · exact absurd rfl hne
    · rfl
  have hmatch : matchesIntPat ('-' :: ds) = true := by
    rw [matchesIntPat, hstrip, isIntCore, hdm, hie, hd]
    rfl
  have hval : intValOf ('-' :: ds) = -(natOfDigits ds : Int) := by
    have hsm : startsMinus ('-' :: ds) = true := by rw [startsMinus]; decide
    simp only [intValOf, hstrip, hsm, hdm, if_true]
  show coerceScalar (⟨'-' :: ds⟩ : String) = _
  rw [coerceScalar, if_pos hmatch, hval]

theorem coerce_digits_nl (ds : List Char) (hne : ds ≠ [])
    (hd : ds.all Char.isDigit = true) :
    coerceScalar ⟨ds ++ ['\n']⟩ = .int (natOfDigits ds) := by
  have hstrip : stripNL (ds ++ ['\n']) = ds := stripNL_concat ds
  have hsm : startsMinus ds = false := startsMinus_of_digits hd
  have hdm : dropMinus ds = ds := dropMinus_of_not_minus hsm
  have hie : ds.isEmpty = false := by
    rcases ds with _ | ⟨c, rest⟩
    · exact absurd rfl hne
    · rfl
  have hmatch : matchesIntPat (ds ++ ['\n']) = true := by
    rw [matchesIntPat, hstrip, isIntCore, hdm, hie, hd]
    rfl
  have hval : intValOf (ds ++ ['\n']) = (natOfDigits ds : Int) := by
    simp only [intValOf, hstrip, hsm, hdm, Bool.false_eq_true, if_false]
  show coerceScalar (⟨ds ++ ['\n']⟩ : String) = _
  rw [coerceScalar, if_pos hmatch, hval]

theorem take_drop_dot {a : List Char} (b : List Char) (ha : a.all Char.isDigit = true) :
    (a ++ '.' :: b).takeWhile (fun c => decide (c ≠ '.')) = a ∧
      (a ++ '.' :: b).dropWhile (fun c => decide (c ≠ '.')) = '.' :: b := by
  induction a with
  | nil =>
    constructor
    · rw [List.nil_append, List.takeWhile_cons]
      simp
    · rw [List.nil_append, List.dropWhile_cons]
      simp
  | cons c a2 ih =>
    rw [List.all_cons, Bool.and_eq_true] at ha
    have hc : c ≠ '.' := mem_digits_ne (l := [c]) (by simp [ha.1])
      (List.mem_singleton_self c) (by decide)
    obtain ⟨ih1, ih2⟩ := ih ha.2
    constructor
    · rw [List.cons_append, List.takeWhile_cons, decide_eq_true hc, ih1]
      rfl
    · rw [List.cons_append, List.dropWhile_cons, decide_eq_true hc, ih2]
      simp

theorem count_dot_digits {a : List Char} (ha : a.all Char.isDigit = true) :
    a.count '.' = 0 :=
  List.count_eq_zero.mpr (fun hm => mem_digits_ne ha hm (by decide) rfl)

theorem all_digits_append_dot_false (a b : List Char) :
    (a ++ '.' :: b).all Char.isDigit = false := by
  rw [List.all_append, List.all_cons]
  simp

/-- The rational value of the decimal literal `a.b`. -/
theorem mkRat_decimal (A B L : Nat) :
    mkRat (A * 10 ^ L + B : Int) (10 ^ L) = (A : ℚ) + (B : ℚ) / (10 : ℚ) ^ L := by
  rw [Rat.mkRat_eq_div]
  have h10 : ((10 : ℚ)) ^ L ≠ 0 := pow_ne_zero _ (by norm_num)
  push_cast
  field_simp

theorem startsMinus_append_dot {a : List Char} (b : List Char)
    (ha : a.all Char.isDigit = true) : startsMinus (a ++ '.' :: b) = false := by
  rcases a with _ | ⟨c, a2⟩
  · rw [List.nil_append, startsMinus]
    decide
  · rw [List.all_cons, Bool.and_eq_true] at ha
    rw [List.cons_append, startsMinus,
      decide_eq_false (mem_digits_ne (l := [c]) (by simp [ha.1])
        (List.mem_singleton_self c) (by decide))]

theorem stripNL_append_dot {a : List Char} (b : List Char) (ha : a.all Char.isDigit = true)
    (hb : b.all Char.isDigit = true) : stripNL (a ++ '.' :: b) = a ++ '.' :: b := by
  refine stripNL_eq_self ?_
  intro x hx
  rw [List.mem_append] at hx
  rcases hx with hx | hx
  · exact mem_digits_ne ha hx (by decide)
  · rw [List.mem_cons] at hx
    rcases hx with rfl | hx
    · decide
    · exact mem_digits_ne hb hx (by decide)

theorem isFloatCore_parts {a : List Char} (b : List Char) (ha : a.all Char.isDigit = true)
    (hb : b.all Char.isDigit = true) (hne : a ≠ [] ∨ b ≠ []) :
    isFloatCore (a ++ '.' :: b) = true := by
  have hdm : dropMinus (a ++ '.' :: b) = a ++ '.' :: b :=
    dropMinus_of_not_minus (startsMinus_append_dot b ha)
  rw [isFloatCore]
  simp only [hdm, Bool.and_eq_true, decide_eq_true_eq]
  refine ⟨⟨?_, ?_⟩, ?_⟩
  · rw [List.count_append, count_dot_digits ha, List.count_cons_self, count_dot_digits hb]
  · rw [List.all_eq_true]
    intro x hx
    rw [List.mem_append] at hx
    rcases hx with hx | hx
    · rw [List.all_eq_true] at ha
      simp [ha x hx]
    · rw [List.mem_cons] at hx
      rcases hx with rfl | hx
      · simp
      · rw [List.all_eq_true] at hb
        simp [hb x hx]
  · rw [List.length_append, List.length_cons]
    rcases hne with hne | hne
    · have := List.length_pos.mpr hne
      omega
    · have := List.length_pos.mpr hne
      omega

theorem floatValOf_parts {a : List Char} (b : List Char) (ha : a.all Char.isDigit = true)
    (hb : b.all Char.isDigit = true) :
    floatValOf (a ++ '.' :: b) =
      (natOfDigits a : ℚ) + (natOfDigits b : ℚ) / (10 : ℚ) ^ b.length := by
  obtain ⟨ht, hdw⟩ := take_drop_dot b ha
  have hstrip := stripNL_append_dot b ha hb
  have hdm : dropMinus (a ++ '.' :: b) = a ++ '.' :: b :=
    dropMinus_of_not_minus (startsMinus_append_dot b ha)
  simp only [floatValOf, hstrip, hdm, ht, hdw, List.drop_one, List.tail_cons,
    startsMinus_append_dot b ha, Bool.false_eq_true, if_false]
  exact mkRat_decimal _ _ _

theorem coerce_float_parts {a : List Char} (b : List Char) (ha : a.all Char.isDigit = true)
    (hb : b.all Char.isDigit = true) (hne : a ≠ [] ∨ b ≠ []) :
    coerceScalar ⟨a ++ '.' :: b⟩ =
      .float ((natOfDigits a : ℚ) + (natOfDigits b : ℚ) / (10 : ℚ) ^ b.length) := by
  have hstrip := stripNL_append_dot b ha hb
  have hdm : dropMinus (a ++ '.' :: b) = a ++ '.' :: b :=
    dropMinus_of_not_minus (startsMinus_append_dot b ha)
  have hint : matchesIntPat (a ++ '.' :: b) = false := by
    rw [matchesIntPat, hstrip, isIntCore, hdm, all_digits_append_dot_false]
    simp
  have hfloat : matchesFloatPat (a ++ '.' :: b) = true := by
    rw [matchesFloatPat, hstrip]
    exact isFloatCore_parts b ha hb hne
  show coerceScalar (⟨a ++ '.' :: b⟩ : String) = _
  rw [coerceScalar, if_neg (by rw [hint]; simp), if_pos hfloat,
    floatValOf_parts b ha hb]

theorem coerce_minus_float_parts {a : List Char} (b : List Char)
    (ha : a.all Char.isDigit = true) (hb : b.all Char.isDigit = true)
    (hne : a ≠ [] ∨ b ≠ []) :
    coerceScalar ⟨'-' :: (a ++ '.' :: b)⟩ =
      .float (-((natOfDigits a : ℚ) + (natOfDigits b : ℚ) / (10 : ℚ) ^ b.length)) := by
  have hstrip : stripNL ('-' :: (a ++ '.' :: b)) = '-' :: (a ++ '.' :: b) := by
    refine stripNL_eq_self ?_
    intro x hx
    rw [List.mem_cons] at hx
    rcases hx with rfl | hx
    · decide
    · rw [List.mem_append] at hx
      rcases hx with hx | hx
      · exact mem_digits_ne ha hx (by decide)
      · rw [List.mem_cons] at hx
        rcases hx with rfl | hx
        · decide
        · exact mem_digits_ne hb hx (by decide)
  have hdm : dropMinus ('-' :: (a ++ '.' :: b)) = a ++ '.' :: b := by
    rw [dropMinus, if_pos rfl]
  have hsm : startsMinus ('-' :: (a ++ '.' :: b)) = true := by
    rw [startsMinus]; decide
  have hint : matchesIntPat ('-' :: (a ++ '.' :: b)) = false := by
    rw [matchesIntPat, hstrip, isIntCore, hdm, all_digits_append_dot_false]
    simp
  have hfloat : matchesFloatPat ('-' :: (a ++ '.' :: b)) = true := by
    rw [matchesFloatPat, hstrip, isFloatCore]
    simp only [hdm]
    have hdm2 : dropMinus (a ++ '.' :: b) = a ++ '.' :: b :=
      dropMinus_of_not_minus (startsMinus_append_dot b ha)
    have h2 := isFloatCore_parts b ha hb hne
    rw [isFloatCore] at h2
    simp only [hdm2] at h2
    exact h2
  obtain ⟨ht, hdw⟩ := take_drop_dot b ha
  have hval : floatValOf ('-' :: (a ++ '.' :: b)) =
      -((natOfDigits a : ℚ) + (natOfDigits b : ℚ) / (10 : ℚ) ^ b.length) := by
    simp only [floatValOf, hstrip, hdm, ht, hdw, List.drop_one, List.tail_cons, hsm,
      if_true]
    rw [mkRat_decimal]
  show coerceScalar (⟨'-' :: (a ++ '.' :: b)⟩ : String) = _
  rw [coerceScalar, if_neg (by rw [hint]; simp), if_pos hfloat, hval]

theorem stripNL_split (s : List Char) : s = stripNL s ∨ s = stripNL s ++ ['\n'] := by
  rw [stripNL]
  by_cases hc : s.getLast? = some '\n'
  · right
    rw [if_pos hc]
    exact (List.dropLast_append_getLast? '\n' hc).symm
  · left
    rw [if_neg hc]

theorem matchesIntPat_shape {s : List Char} (h : matchesIntPat s = true) : IntShapeNL s := by
  rw [matchesIntPat, isIntCore, Bool.and_eq_true] at h
  obtain ⟨h1, h2⟩ := h
  have hne : dropMinus (stripNL s) ≠ [] := by
    intro he
    rw [he] at h1
    cases h1
  rcases hcore : stripNL s with _ | ⟨c, rest⟩
  · rw [hcore] at hne
    exact absurd rfl hne
  · rw [hcore] at h1 h2 hne
    by_cases hm : c = '-'
    · subst hm
      have hdm : dropMinus ('-' :: rest) = rest := by rw [dropMinus, if_pos rfl]
      rw [hdm] at h2 hne
      refine ⟨rest, hne, h2, ?_⟩
      rcases stripNL_split s with hsp | hsp
      · right; left
        rw [hsp, hcore]
      · right; right; right
        rw [hsp, hcore]
        simp
    · have hdm : dropMinus (c :: rest) = c :: rest := by rw [dropMinus, if_neg hm]
      rw [hdm] at h2
      refine ⟨c :: rest, by simp, h2, ?_⟩
      rcases stripNL_split s with hsp | hsp
      · left
        rw [hsp, hcore]
      · right; right; left
        rw [hsp, hcore]

theorem count_one_split : ∀ t : List Char, t.count '.' = 1 →
    t.all (fun c => c.isDigit || decide (c = '.')) = true →
    ∃ a b : List Char, t = a ++ '.' :: b ∧ a.all Char.isDigit = true ∧
      b.all Char.isDigit = true
  | [] => by
    intro h _
    simp at h
  | c :: rest => by
    intro hc hall
    rw [List.all_cons, Bool.and_eq_true] at hall
    obtain ⟨hc1, hrest⟩ := hall
    by_cases hdot : c = '.'
    · subst hdot
      have hcr : rest.count '.' = 0 := by
        rw [List.count_cons_self] at hc
        omega
      have hnm : '.' ∉ rest := List.count_eq_zero.mp hcr
      have hb : rest.all Char.isDigit = true := by
        rw [List.all_eq_true] at hrest ⊢
        intro x hx
        have hx2 : x.isDigit = true ∨ x = '.' := by simpa using hrest x hx
        rcases hx2 with hd | hd
        · exact hd
        · exact absurd (hd ▸ hx) hnm
      exact ⟨[], rest, rfl, rfl, hb⟩
    · have hcd : c.isDigit = true := by
        have hc2 : c.isDigit = true ∨ c = '.' := by simpa using hc1
        rcases hc2 with hd | hd
        · exact hd
        · exact absurd hd hdot
      have hcnt : rest.count '.' = 1 := by
        have hne2 : ¬ ('.' = c) := fun he => hdot he.symm
        rw [List.count_cons] at hc
        simp [hdot, hne2] at hc
        omega
      obtain ⟨a, b, he, ha, hb⟩ := count_one_split rest hcnt hrest
      refine ⟨c :: a, b, by rw [he, List.cons_append], ?_, hb⟩
      rw [List.all_cons, hcd, ha]
      rfl

theorem matchesFloatPat_shape {s : List Char} (h : matchesFloatPat s = true) :
    FloatShapeNL s := by
  rw [matchesFloatPat, isFloatCore] at h
  simp only [Bool.and_eq_true, decide_eq_true_eq] at h
  obtain ⟨⟨hcnt, hall⟩, hlen⟩ := h
  obtain ⟨a, b, he, ha, hb⟩ := count_one_split _ hcnt hall
  have hab : a ≠ [] ∨ b ≠ [] := by
    rcases a with _ | ⟨c, a2⟩
    · rcases b with _ | ⟨d, b2⟩
      · rw [he] at hlen
        simp at hlen
      · right; simp
    · left; simp
  rcases hcore : stripNL s with _ | ⟨c, rest⟩
  · rw [hcore] at he
    rcases a with _ | ⟨c2, a2⟩ <;> simp [dropMinus] at he
  · rw [hcore] at he
    by_cases hm : c = '-'
    · subst hm
      rw [dropMinus, if_pos rfl] at he
      refine ⟨a, b, ha, hb, hab, ?_⟩
      rcases stripNL_split s with hsp | hsp
      · right; left
        rw [hsp, hcore, he]
      · right; right; right
        rw [hsp, hcore, he]
        simp
    · rw [dropMinus, if_neg hm] at he
      refine ⟨a, b, ha, hb, hab, ?_⟩
      rcases stripNL_split s with hsp | hsp
      · left
        rw [hsp, hcore, he]
      · right; right; left
        rw [hsp, hcore, he]

theorem coerce_other {s : String} (h1 : ¬ IntShapeNL s.data) (h2 : ¬ FloatShapeNL s.data) :
    coerceScalar s = .str s := by
  rcases hm : matchesIntPat s.data with _ | _
  · rcases hf : matchesFloatPat s.data with _ | _
    · rw [coerceScalar, if_neg (by rw [hm]; simp), if_neg (by rw [hf]; simp)]
    · exact absurd (matchesFloatPat_shape hf) h2
  · exact absurd (matchesIntPat_shape hm) h1

/-- C6 (amended): `normalize_recursively` coerces exactly the scalar
strings matched by the anchored patterns — an optional minus and a
nonempty digit run becomes the corresponding integer, an optional minus
and digits around one decimal point (at least one digit) becomes the
corresponding float — where, because Python's `$` also matches just
before a single trailing newline, a string with one trailing newline
after either pattern is coerced as well (`int`/`float` strip it); every
string of neither (newline-extended) shape and every non-string scalar is
left unchanged; the spec's concrete examples hold. -/
theorem c6_coercion :
    (∀ ds : List Char, ds ≠ [] → ds.all Char.isDigit = true →
      normalize_recursively (.str ⟨ds⟩) = .int (natOfDigits ds) ∧
      normalize_recursively (.str ⟨'-' :: ds⟩) = .int (-(natOfDigits ds : Int)) ∧
      normalize_recursively (.str ⟨ds ++ ['\n']⟩) = .int (natOfDigits ds)) ∧
    (∀ a b : List Char, a.all Char.isDigit = true → b.all Char.isDigit = true →
      a ≠ [] ∨ b ≠ [] →
      normalize_recursively (.str ⟨a ++ '.' :: b⟩) =
        .float ((natOfDigits a : ℚ) + (natOfDigits b : ℚ) / (10 : ℚ) ^ b.length) ∧
      normalize_recursively (.str ⟨'-' :: (a ++ '.' :: b)⟩) =
        .float (-((natOfDigits a : ℚ) + (natOfDigits b : ℚ) / (10 : ℚ) ^ b.length))) ∧
    (∀ s : String, ¬ IntShapeNL s.data → ¬ FloatShapeNL s.data →
      normalize_recursively (.str s) = .str s) ∧
    (∀ n : Int, normalize_recursively (.int n) = .int n) ∧
    (∀ q : ℚ, normalize_recursively (.float q) = .float q) ∧
    (∀ b : Bool, normalize_recursively (.bool b) = .bool b) ∧
    normalize_recursively .none = .none ∧
    normalize_recursively (.str "42") = .int 42 ∧
    normalize_recursively (.str "-3.14") = .float (-(157 / 50 : ℚ)) ∧
    normalize_recursively (.str "3.") = .float (3 : ℚ) ∧
    normalize_recursively (.str "abc") = .str "abc" ∧
    normalize_recursively (.str "true") = .str "true" ∧
    normalize_recursively (.str "false") = .str "false" := by
  refine ⟨?_, ?_, ?_, fun n => rfl, fun q => rfl, fun b => rfl, rfl, rfl, ?_, ?_, rfl,
    rfl, rfl⟩
  · intro ds hne hd
    exact ⟨coerce_digits ds hne hd, coerce_minus_digits ds hne hd,
      coerce_digits_nl ds hne hd⟩
  · intro a b ha hb hne
    exact ⟨coerce_float_parts b ha hb hne, coerce_minus_float_parts b ha hb hne⟩
  · intro s h1 h2
    exact coerce_other h1 h2
  · exact coerce_float_example
  · have h1 : floatValOf "3.".data = mkRat 3 1 := by decide
    have h2 : mkRat 3 1 = (3 : ℚ) := by
      rw [Rat.mkRat_eq_div]
      norm_num
    calc normalize_recursively (.str "3.") = .float (floatValOf "3.".data) := rfl
      _ = .float (3 : ℚ) := by rw [h1, h2]

/-- C6 witness: the integer conjunct applied at the digit string `"7"`. -/
theorem c6_coercion_witness :
    normalize_recursively (.str "7") = .int 7 ∧
      normalize_recursively (.str "-7") = .int (-7) := by
  have h := c6_coercion.1 ['7'] (by decide) (by decide)
  refine ⟨h.1.trans ?_, h.2.1.trans ?_⟩
  · have hv : natOfDigits ['7'] = 7 := by decide
    rw [hv]
    norm_num
  · have hv : natOfDigits ['7'] = 7 := by decide
    rw [hv]
    norm_num

/-! ## Claim C1: the casing algorithm -/

/-- C1 counterexample: transcribing the claim's algorithm literally
(`specToCamelCase`, subsequent tokens keep their tails) disagrees with
`_to_camel_case` at `"BITS_PER_SAMPLE"`: the claim's algorithm gives
`"bITSPERSAMPLE"`, the code gives `"bITSPerSample"` because
`str.capitalize()` lower-cases the tail of each subsequent token. -/
theorem c1_counterexample :
    specToCamelCase "BITS_PER_SAMPLE" = "bITSPERSAMPLE" ∧
      toCamelCase "BITS_PER_SAMPLE" = "bITSPerSample" ∧
      toCamelCase "BITS_PER_SAMPLE" ≠ specToCamelCase "BITS_PER_SAMPLE" := by
  refine ⟨by decide, by decide, by decide⟩

theorem splitGo_token : ∀ (t l cur : List Char), (∀ c ∈ t, pyIsSpace c = false) →
    splitGo (t ++ l) cur = splitGo l (t.reverse ++ cur)
  | [], l, cur => fun _ => by simp
  | c :: t2, l, cur => fun h => by
    have hc : pyIsSpace c = false := h c (List.mem_cons_self c t2)
    rw [List.cons_append, splitGo, hc]
    show splitGo (t2 ++ l) (c :: cur) = _
    rw [splitGo_token t2 l (c :: cur) (fun x hx => h x (List.mem_cons_of_mem c hx))]
    simp

theorem splitGo_all_space : ∀ (l cur : List Char), (∀ c ∈ l, pyIsSpace c = true) →
    splitGo l cur = if cur.isEmpty then [] else [cur.reverse]
  | [], cur => fun _ => rfl
  | c :: rest, cur => fun h => by
    have hc : pyIsSpace c = true := h c (List.mem_cons_self c rest)
    rw [splitGo, hc]
    have ih := splitGo_all_space rest [] (fun x hx => h x (List.mem_cons_of_mem c hx))
    show (if cur.isEmpty then splitGo rest [] else cur.reverse :: splitGo rest []) = _
    rw [ih]
    rcases cur with _ | ⟨c0, cur2⟩
    · rfl
    · rfl

theorem pySplit_join : ∀ toks : List (List Char),
    (∀ t ∈ toks, t ≠ [] ∧ ∀ c ∈ t, pyIsSpace c = false) →
    pySplit (joinSpL toks) = toks
  | [] => fun _ => rfl
  | [t] => fun h => by
    obtain ⟨hne, hw⟩ := h t (List.mem_cons_self t [])
    show splitGo (joinSpL [t]) [] = [t]
    have hj : joinSpL [t] = t ++ [] := by simp [joinSpL]
    have hie : (t.reverse ++ []).isEmpty = false := by
      rcases ht : t.reverse with _ | ⟨c, r⟩
      · exact absurd (by simpa using ht) hne
      · rfl
    rw [hj, splitGo_token t [] [] hw, splitGo, hie]
    simp
  | t :: t2 :: rest => fun h => by
    obtain ⟨hne, hw⟩ := h t (List.mem_cons_self t _)
    have ih2 : splitGo (joinSpL (t2 :: rest)) [] = t2 :: rest :=
      pySplit_join (t2 :: rest) (fun x hx => h x (List.mem_cons_of_mem t hx))
    show splitGo (joinSpL (t :: t2 :: rest)) [] = t :: t2 :: rest
    have hj : joinSpL (t :: t2 :: rest) = t ++ ' ' :: joinSpL (t2 :: rest) := rfl
    rw [hj, splitGo_token t _ [] hw, splitGo]
    have hsp : pyIsSpace ' ' = true := rfl
    rw [hsp]
    have hcur : (t.reverse ++ []).isEmpty = false := by
      rcases ht : t.reverse with _ | ⟨c, r⟩
      · exact absurd (by simpa using ht) hne
      · rfl
    rw [hcur]
    simp [ih2]

theorem sepToSpace_join : ∀ toks : List (List Char),
    (∀ t ∈ toks, ∀ c ∈ t, isSepChar c = false) →
    (joinSpL toks).map sepToSpace = joinSpL toks
  | [] => fun _ => rfl
  | [t] => fun h => by
    show t.map sepToSpace = t
    have h2 := h t (List.mem_cons_self t [])
    calc t.map sepToSpace = t.map id := List.map_congr_left (fun c hc => by
        have h3 := h2 c hc
        rw [isSepChar] at h3
        simp only [Bool.or_eq_false_iff] at h3
        rw [sepToSpace, if_neg (by simp [h3.1.2, h3.2])]
        rfl)
      _ = t := List.map_id t
  | t :: t2 :: rest => fun h => by
    have ih := sepToSpace_join (t2 :: rest) (fun x hx => h x (List.mem_cons_of_mem t hx))
    have h2 := h t (List.mem_cons_self t _)
    have hj : joinSpL (t :: t2 :: rest) = t ++ ' ' :: joinSpL (t2 :: rest) := rfl
    rw [hj, List.map_append, List.map_cons, ih]
    have ht : t.map sepToSpace = t := by
      calc t.map sepToSpace = t.map id := List.map_congr_left (fun c hc => by
          have h3 := h2 c hc
          rw [isSepChar] at h3
          simp only [Bool.or_eq_false_iff] at h3
          rw [sepToSpace, if_neg (by simp [h3.1.2, h3.2])]
          rfl)
        _ = t := List.map_id t
    rw [ht]
    rfl

/-- C1 (amended): the casing function computes the claimed algorithm with
one change forced by `str.capitalize()` — every token after the first has
its first character upper-cased and the *rest of the token lower-cased*
(not left unchanged).  For any nonempty list of nonempty separator-free
tokens joined by single spaces, `_to_camel_case` returns `lowerFirst` of
the first token followed by the Python-capitalization of each later
token; and any string of separators only (or the empty string) yields the
empty key. -/
theorem c1_casing :
    (∀ toks : List (List Char), toks ≠ [] →
      (∀ t ∈ toks, t ≠ [] ∧ ∀ c ∈ t, isSepChar c = false) →
      toCamelCase ⟨joinSpL toks⟩ = camelOfTokens toks) ∧
    (∀ s : String, (∀ c ∈ s.data, isSepChar c = true) → toCamelCase s = "") := by
  constructor
  · intro toks hne h
    have hsep : (joinSpL toks).map sepToSpace = joinSpL toks :=
      sepToSpace_join toks (fun t ht => (h t ht).2)
    have hsplit : pySplit (joinSpL toks) = toks := by
      refine pySplit_join toks (fun t ht => ⟨(h t ht).1, fun c hc => ?_⟩)
      have h3 := (h t ht).2 c hc
      rw [isSepChar, Bool.or_eq_false_iff, Bool.or_eq_false_iff] at h3
      exact h3.1.1
    have hne2 : (⟨joinSpL toks⟩ : String) ≠ "" := by
      rcases toks with _ | ⟨t, ts⟩
      · exact absurd rfl hne
      · obtain ⟨htne, _⟩ := h t (List.mem_cons_self t ts)
        intro he
        have hd : joinSpL (t :: ts) = [] := congrArg String.data he
        rcases ts with _ | ⟨t2, ts2⟩
        · exact htne (by simpa [joinSpL] using hd)
        · rw [show joinSpL (t :: t2 :: ts2) = t ++ ' ' :: joinSpL (t2 :: ts2) from rfl]
            at hd
          rcases t with _ | ⟨c, r⟩
          · exact htne rfl
          · cases hd
    rw [toCamelCase, if_neg hne2]
    show (match pySplit ((joinSpL toks).map sepToSpace) with
      | [] => ""
      | [w] => (⟨lowerFirst w⟩ : String)
      | w :: ws => (⟨lowerFirst w ++ (ws.map pyCapitalize).flatten⟩ : String)) =
      camelOfTokens toks
    rw [hsep, hsplit]
    rcases toks with _ | ⟨t, ts⟩
    · exact absurd rfl hne
    · rcases ts with _ | ⟨t2, ts2⟩
      · rfl
      · rfl
  · intro s h
    by_cases he : s = ""
    · rw [toCamelCase, if_pos he]
    · rw [toCamelCase, if_neg he]
      have hsplit : pySplit (s.data.map sepToSpace) = [] := by
        refine splitGo_all_space _ [] ?_
        intro c hc
        rw [List.mem_map] at hc
        obtain ⟨x, hx, hcx⟩ := hc
        have h2 := h x hx
        rw [isSepChar, Bool.or_eq_true, Bool.or_eq_true] at h2
        rcases h2 with (h2 | h2) | h2
        · rw [← hcx, sepToSpace]
          by_cases hxd : x = '-' ∨ x = '_'
          · rw [if_pos (by simpa using hxd)]
            rfl
          · rw [if_neg (by simpa using hxd)]
            exact h2
        · rw [← hcx, sepToSpace, if_pos (by simp [eq_of_beq h2])]
          rfl
        · rw [← hcx, sepToSpace, if_pos (by simp [eq_of_beq h2])]
          rfl
      rw [hsplit]

/-- C1 witness: the amended algorithm applied to the two-token split of
`"Image Width"`, and the all-separator clause applied to `"-_ "`. -/
theorem c1_casing_witness :
    toCamelCase "Image Width" = "imageWidth" ∧ toCamelCase "-_ " = "" := by
  have h1 := c1_casing.1 [['I', 'm', 'a', 'g', 'e'], ['W', 'i', 'd', 't', 'h']]
    (by decide) (by decide)
  have h2 := c1_casing.2 "-_ " (by decide)
  exact ⟨h1, h2⟩

/-! ## Path resolution (claim C7) -/

theorem keyMem_iff_mem (k : String) : ∀ l : List String, keyMem k l = true ↔ k ∈ l
  | [] => by simp [keyMem]
  | k0 :: rest => by
    rw [keyMem, Bool.or_eq_true, decide_eq_true_eq, List.mem_cons,
      keyMem_iff_mem k rest]
    constructor
    · rintro (h | h)
      · exact Or.inl h.symm
      · exact Or.inr h
    · rintro (h | h)
      · exact Or.inl h.symm
      · exact Or.inr h

theorem wfEntries_mem : ∀ (entries : List (String × PyVal)) (k : String) (v : PyVal),
    wfEntries entries = true → (k, v) ∈ entries → goodKey k = true ∧ wfVal v = true
  | [], _, _ => by intro _ h; cases h
  | (k0, v0) :: rest, k, v => by
    intro hwf hmem
    rw [wfEntries, Bool.and_eq_true, Bool.and_eq_true] at hwf
    rw [List.mem_cons] at hmem
    rcases hmem with heq | hmem
    · obtain ⟨h1, h2⟩ := Prod.mk.injEq .. ▸ heq
      cases heq
      exact ⟨hwf.1.1, hwf.1.2⟩
    · exact wfEntries_mem rest k v hwf.2 hmem

theorem wfItems_get : ∀ (items : List PyVal) (j : Nat) (v : PyVal),
    wfItems items = true → items.get? j = some v → wfVal v = true
  | [], _, _ => by intro _ h; cases h
  | v0 :: rest, j, v => by
    intro hwf hget
    rw [wfItems, Bool.and_eq_true] at hwf
    rcases j with _ | j2
    · rw [List.get?_cons_zero] at hget
      cases hget
      exact hwf.1
    · rw [List.get?_cons_succ] at hget
      exact wfItems_get rest j2 v hwf.2 hget

theorem dictGet_of_mem : ∀ (entries : List (String × PyVal)) (k : String) (v : PyVal),
    nodupKeysB (entries.map Prod.fst) = true → (k, v) ∈ entries →
    dictGet entries k = some v
  | [], _, _ => by intro _ h; cases h
  | (k0, v0) :: rest, k, v => by
    intro hnd hmem
    rw [List.map_cons, nodupKeysB, Bool.and_eq_true] at hnd
    rw [List.mem_cons] at hmem
    rcases hmem with heq | hmem
    · cases heq
      rw [dictGet, if_pos rfl]
    · by_cases hk : k0 = k
      · subst hk
        have : k0 ∈ rest.map Prod.fst := by
          rw [List.mem_map]
          exact ⟨(k0, v), hmem, rfl⟩
        rw [← keyMem_iff_mem] at this
        rw [this] at hnd
        cases hnd.1
      · rw [dictGet, if_neg hk]
        exact dictGet_of_mem rest k v hnd.2 hmem

theorem digitChar_facts : ∀ d : Nat, d < 10 →
    digitVal (digitChar d) = d ∧ (digitChar d).isDigit = true := by
  intro d hd
  interval_cases d <;> exact ⟨by decide, by decide⟩

theorem natDigitsGo_append : ∀ (fuel n : Nat) (acc : List Char),
    natDigitsGo fuel n acc = natDigitsGo fuel n [] ++ acc
  | 0, n, acc => rfl
  | fuel + 1, n, acc => by
    rw [natDigitsGo, natDigitsGo]
    by_cases h : n < 10
    · rw [if_pos h, if_pos h]
      rfl
    · rw [if_neg h, if_neg h, natDigitsGo_append fuel (n / 10) (digitChar (n % 10) :: acc),
        natDigitsGo_append fuel (n / 10) [digitChar (n % 10)]]
      simp

theorem natOfDigits_concat (xs : List Char) (c : Char) :
    natOfDigits (xs ++ [c]) = 10 * natOfDigits xs + digitVal c := by
  simp [natOfDigits, List.foldl_append]

theorem natDigitsGo_facts : ∀ (fuel n : Nat), n < fuel →
    natOfDigits (natDigitsGo fuel n []) = n ∧ natDigitsGo fuel n [] ≠ [] ∧
      (natDigitsGo fuel n []).all Char.isDigit = true
  | 0, n => by intro h; cases h
  | fuel + 1, n => by
    intro hlt
    rw [natDigitsGo]
    by_cases h : n < 10
    · rw [if_pos h]
      obtain ⟨hv, hd⟩ := digitChar_facts n h
      refine ⟨?_, by simp, by simp [hd]⟩
      show natOfDigits ([] ++ [digitChar n]) = n
      rw [natOfDigits_concat]
      simp [hv, natOfDigits]
    · rw [if_neg h]
      have hpos : 0 < n := by omega
      have hdiv : n / 10 < fuel := by
        have h1 : n / 10 < n := Nat.div_lt_self hpos (by omega)
        omega
      obtain ⟨ihv, ihne, ihd⟩ := natDigitsGo_facts fuel (n / 10) hdiv
      rw [natDigitsGo_append]
      obtain ⟨hv, hd⟩ := digitChar_facts (n % 10) (Nat.mod_lt n (by omega))
      refine ⟨?_, by simp, ?_⟩
      · rw [natOfDigits_concat, ihv, hv]
        omega
      · rw [List.all_append, ihd]
        simp [hd]

theorem natDigits_facts (n : Nat) :
    natOfDigits (natDigits n) = n ∧ natDigits n ≠ [] ∧
      (natDigits n).all Char.isDigit = true :=
  natDigitsGo_facts (n + 1) n (Nat.lt_succ_self n)

theorem parseIdx_natToStr (n : Nat) : parseIdx (natToStr n) = some n := by
  obtain ⟨hv, hne, hd⟩ := natDigits_facts n
  rw [parseIdx, if_pos ⟨hne, hd⟩]
  show some (natOfDigits (natDigits n)) = some n
  rw [hv]

theorem joinDotsStr_single (k : String) : joinDotsStr [k] = k := rfl

theorem joinDotsStr_cons (k : String) (segs : List String) (h : segs ≠ []) :
    joinDotsStr (k :: segs) = k ++ "." ++ joinDotsStr segs := by
  rcases segs with _ | ⟨s2, rest⟩
  · exact absurd rfl h
  · refine String.ext ?_
    show joinDotsL (k.data :: s2.data :: rest.map String.data) =
      ((k ++ ".").data) ++ joinDotsL (s2.data :: rest.map String.data)
    have h1 : joinDotsL (k.data :: s2.data :: rest.map String.data) =
        k.data ++ '.' :: joinDotsL (s2.data :: rest.map String.data) := rfl
    have h2 : (k ++ "." : String).data = k.data ++ ['.'] := rfl
    rw [h1, h2]
    simp

theorem append_ne_empty {a : String} (b : String) (h : a ≠ "") : a ++ b ≠ "" := by
  intro he
  have hd : a.data ++ b.data = [] := congrArg String.data he
  rw [List.append_eq_nil] at hd
  exact h (String.ext hd.1)

theorem joinPath_comp (parent k : String) (segs : List String) (hk : k ≠ "")
    (hsegs : segs ≠ []) :
    joinPath parent (joinDotsStr (k :: segs)) =
      joinPath (joinPath parent k) (joinDotsStr segs) := by
  have hjp0 : ∀ q : String, joinPath "" q = q := fun q => by rw [joinPath, if_pos rfl]
  have hjpn : ∀ p q : String, p ≠ "" → joinPath p q = p ++ "." ++ q :=
    fun p q h => by rw [joinPath, if_neg h]
  by_cases hp : parent = ""
  · rw [hp, hjp0, hjp0, hjpn k _ hk, joinDotsStr_cons k segs hsegs]
  · rw [hjpn parent _ hp, hjpn parent k hp,
      hjpn _ _ (append_ne_empty k (append_ne_empty "." hp)),
      joinDotsStr_cons k segs hsegs]
    simp [String.append_assoc]

theorem splitDotsStr_joinDotsStr (segs : List String) (hne : segs ≠ [])
    (hgood : ∀ seg ∈ segs, ∀ c ∈ seg.data, c ≠ '.') :
    splitDotsStr (joinDotsStr segs) = segs := by
  rw [splitDotsStr, joinDotsStr]
  show (splitDotsL (joinDotsL (segs.map String.data))).map (fun l => (⟨l⟩ : String)) = segs
  rw [splitDotsL_joinDotsL (segs.map String.data)
    (by rcases segs with _ | ⟨s, ss⟩; exact absurd rfl hne; simp)
    (by
      intro t ht
      rw [List.mem_map] at ht
      obtain ⟨seg, hseg, he⟩ := ht
      rw [← he]
      exact hgood seg hseg)]
  rw [List.map_map]
  calc segs.map ((fun l => (⟨l⟩ : String)) ∘ String.data) = segs.map id :=
    List.map_congr_left (fun a _ => rfl)
    _ = segs := List.map_id segs

theorem extractEntries_mem : ∀ (entries : List (String × PyVal)) (parent s : String),
    s ∈ extractEntries entries parent →
    ∃ k v, (k, v) ∈ entries ∧
      (s = joinPath parent k ∨ s ∈ extractPaths v (joinPath parent k))
  | [], _, _ => by intro h; cases h
  | (k0, v0) :: rest, parent, s => by
    intro h
    rw [extractEntries, List.mem_cons, List.mem_append] at h
    rcases h with h | h | h
    · exact ⟨k0, v0, List.mem_cons_self _ _, Or.inl h⟩
    · exact ⟨k0, v0, List.mem_cons_self _ _, Or.inr h⟩
    · obtain ⟨k, v, hmem, hc⟩ := extractEntries_mem rest parent s h
      exact ⟨k, v, List.mem_cons_of_mem _ hmem, hc⟩

theorem extractItems_mem : ∀ (items : List PyVal) (i : Nat) (parent s : String),
    s ∈ extractItems items i parent →
    ∃ j v, items.get? j = some v ∧
      (s = joinPath parent (natToStr (i + j)) ∨
        s ∈ extractPaths v (joinPath parent (natToStr (i + j))))
  | [], _, _, _ => by intro h; cases h
  | v0 :: rest, i, parent, s => by
    intro h
    rw [extractItems, List.mem_cons, List.mem_append] at h
    rcases h with h | h | h
    · exact ⟨0, v0, rfl, Or.inl (by rw [Nat.add_zero]; exact h)⟩
    · exact ⟨0, v0, rfl, Or.inr (by rw [Nat.add_zero]; exact h)⟩
    · obtain ⟨j, v, hget, hc⟩ := extractItems_mem rest (i + 1) parent s h
      refine ⟨j + 1, v, by rw [List.get?_cons_succ]; exact hget, ?_⟩
      have he : i + 1 + j = i + (j + 1) := by omega
      rw [he] at hc
      exact hc

theorem resolve_nil (v : PyVal) : resolve v [] = some v := by
  cases v <;> rfl

theorem resolve_dict_cons (entries : List (String × PyVal)) (k : String) (v : PyVal)
    (segs : List String) (h : dictGet entries k = some v) :
    resolve (.dict entries) (k :: segs) = resolve v segs := by
  rw [resolve, h]

theorem resolve_list_cons (items : List PyVal) (j : Nat) (v : PyVal)
    (segs : List String) (h : items.get? j = some v) :
    resolve (.list items) (natToStr j :: segs) = resolve v segs := by
  rw [resolve, parseIdx_natToStr]
  show (match items.get? j with
    | some w => resolve w segs
    | Option.none => Option.none) = resolve v segs
  rw [h]

/-- Every emitted path of a well-formed tree decomposes into nonempty,
dot-free segments that resolve against the tree. -/
theorem extract_resolvable (v : PyVal) (hwf : wfVal v = true) (parent s : String)
    (hs : s ∈ extractPaths v parent) :
    ∃ segs : List String, segs ≠ [] ∧
      (∀ seg ∈ segs, seg ≠ "" ∧ ∀ c ∈ seg.data, c ≠ '.') ∧
      s = joinPath parent (joinDotsStr segs) ∧ (resolve v segs).isSome = true := by
  match v with
  | .str x => exact absurd hs (List.not_mem_nil s)
  | .int n => exact absurd hs (List.not_mem_nil s)
  | .float q => exact absurd hs (List.not_mem_nil s)
  | .bool b => exact absurd hs (List.not_mem_nil s)
  | .none => exact absurd hs (List.not_mem_nil s)
  | .dict entries =>
    rw [extractPaths] at hs
    obtain ⟨k, v2, hmem, hcase⟩ := extractEntries_mem entries parent s hs
    rw [wfVal, Bool.and_eq_true] at hwf
    obtain ⟨hgk, hwf2⟩ := wfEntries_mem entries k v2 hwf.2 hmem
    rw [goodKey, Bool.and_eq_true, decide_eq_true_eq] at hgk
    have hkne : k ≠ "" := hgk.1
    have hkdot : ∀ c ∈ k.data, c ≠ '.' := by
      intro c hc
      have h2 := List.all_eq_true.mp hgk.2 c hc
      exact of_decide_eq_true h2
    have hget : dictGet entries k = some v2 := dictGet_of_mem entries k v2 hwf.1 hmem
    rcases hcase with hcase | hcase
    · refine ⟨[k], by simp, ?_, ?_, ?_⟩
      · intro seg hseg
        rw [List.mem_singleton] at hseg
        subst hseg
        exact ⟨hkne, hkdot⟩
      · rw [joinDotsStr_single]
        exact hcase
      · rw [resolve_dict_cons entries k v2 [] hget, resolve_nil]
        rfl
    · obtain ⟨segs, hne, hgood, hjoin, hres⟩ :=
        extract_resolvable v2 hwf2 (joinPath parent k) s hcase
      refine ⟨k :: segs, by simp, ?_, ?_, ?_⟩
      · intro seg hseg
        rw [List.mem_cons] at hseg
        rcases hseg with rfl | hseg
        · exact ⟨hkne, hkdot⟩
        · exact hgood seg hseg
      · rw [joinPath_comp parent k segs hkne hne, ← hjoin]
      · rw [resolve_dict_cons entries k v2 segs hget]
        exact hres
  | .list items =>
    rw [extractPaths] at hs
    obtain ⟨j, v2, hget, hcase⟩ := extractItems_mem items 0 parent s hs
    rw [Nat.zero_add] at hcase
    rw [wfVal] at hwf
    have hwf2 : wfVal v2 = true := wfItems_get items j v2 hwf hget
    have hkne : natToStr j ≠ "" := by
      intro he
      exact (natDigits_facts j).2.1 (congrArg String.data he)
    have hkdot : ∀ c ∈ (natToStr j).data, c ≠ '.' := by
      intro c hc
      exact mem_digits_ne (natDigits_facts j).2.2 hc (by decide)
    rcases hcase with hcase | hcase
    · refine ⟨[natToStr j], by simp, ?_, ?_, ?_⟩
      · intro seg hseg
        rw [List.mem_singleton] at hseg
        subst hseg
        exact ⟨hkne, hkdot⟩
      · rw [joinDotsStr_single]
        exact hcase
      · rw [resolve_list_cons items j v2 [] hget, resolve_nil]
        rfl
    · obtain ⟨segs, hne, hgood, hjoin, hres⟩ :=
        extract_resolvable v2 hwf2 (joinPath parent (natToStr j)) s hcase
      refine ⟨natToStr j :: segs, by simp, ?_, ?_, ?_⟩
      · intro seg hseg
        rw [List.mem_cons] at hseg
        rcases hseg with rfl | hseg
        · exact ⟨hkne, hkdot⟩
        · exact hgood seg hseg
      · rw [joinPath_comp parent (natToStr j) segs hkne hne, ← hjoin]
      · rw [resolve_list_cons items j v2 segs hget]
        exact hres
termination_by sizeOf v
decreasing_by
  · have h1 := List.sizeOf_lt_of_mem hmem
    simp only [Prod.mk.sizeOf_spec] at h1
    simp only [PyVal.dict.sizeOf_spec]
    omega
  · have h1 := List.sizeOf_lt_of_mem (List.get?_mem hget)
    simp only [PyVal.list.sizeOf_spec]
    omega

/-- C7 counterexample: mapping keys may themselves contain `.`.  For the
tree `{"x.y": 1}` the enumerator emits the path `"x.y"`, but splitting it
on `.` gives the segments `["x", "y"]` and walking the tree with them
fails — the path is not resolvable, so the claim's universal statement
over all finite trees is false. -/
theorem c7_counterexample :
    "x.y" ∈ extractPaths (.dict [("x.y", .int 1)]) "" ∧
      resolve (.dict [("x.y", .int 1)]) (splitDotsStr "x.y") = Option.none := by
  constructor
  · decide
  · have h : splitDotsStr "x.y" = ["x", "y"] := by decide
    rw [h]
    rfl

/-- C7 (amended): for every finite tree all of whose mappings have
unique, nonempty, dot-free keys, every path emitted by
`extract_key_paths` is resolvable: splitting the path on `.` and walking
the tree segment by segment (mapping-key lookup at mappings, index lookup
at sequences) reaches a location of the tree. -/
theorem c7_resolvable (T : PyVal) (hwf : wfVal T = true) :
    ∀ p ∈ extractPaths T "", (resolve T (splitDotsStr p)).isSome = true := by
  intro p hp
  obtain ⟨segs, hne, hgood, hjoin, hres⟩ := extract_resolvable T hwf "" p hp
  have hj : p = joinDotsStr segs := by
    rw [hjoin, joinPath, if_pos rfl]
  have hsplit : splitDotsStr p = segs := by
    rw [hj]
    exact splitDotsStr_joinDotsStr segs hne (fun seg hseg => (hgood seg hseg).2)
  rw [hsplit]
  exact hres

/-- C7 witness: the amended theorem applied to the spec's example tree and
its deepest path. -/
theorem c7_resolvable_witness :
    (resolve (.dict [("a", .dict [("b", .list [.int 1, .int 2])]), ("c", .int 3)])
      (splitDotsStr "a.b.0")).isSome = true := by
  exact c7_resolvable
    (.dict [("a", .dict [("b", .list [.int 1, .int 2])]), ("c", .int 3)])
    (by decide) "a.b.0" (by decide)

end IMR
